import Mathlib

/-!
# Verification of the order-book math and strategy entry logic

A shallow embedding, over exact rationals, of the decision-engine code of the
`polymarketarb` repository: the order-book sweep/search functions of
`src/engine.js`, the arbitrage straddle module, the certainty strategy's entry
logic, and the lag strategy's feed-disagreement gate and entry executor.
JavaScript numbers are modelled as `ℚ` (every value arising in these
computations is finite), `null`/`undefined` as `Option`, and the source's
literal floating-point tolerances (`1e-9`, `1e-12`, price epsilons) as the
corresponding rationals.
-/

namespace PolymarketArb

/-- One order-book level (`{price, size}` as produced by `normalizeLevels` in
`src/engine.js`). -/
structure Level where
  price : ℚ
  size : ℚ
deriving Repr, DecidableEq

/-- The `1e-9` residual-shares tolerance used by the sweep functions. -/
def eps9 : ℚ := 1 / 1000000000

/-- Sum of the `size` fields of a ladder (the `reduce` in `maxSharesForBudget`
and `computeEqualProfitStraddle`; `Number.isFinite` is always true in `ℚ`). -/
def sumSizes (levels : List Level) : ℚ := (levels.map Level.size).sum

/-- Successful result of `costToBuySharesFromAsks` (engine.js): fee-inclusive
cost and the worst (last) filled price. -/
structure BuyFill where
  cost : ℚ
  maxPrice : ℚ
deriving Repr, DecidableEq

/-- The `for (const level of asks)` loop of `costToBuySharesFromAsks`
(src/engine.js lines 437-456), carrying the loop state
`(remaining, cost, maxPrice)`. -/
def sweepAsks : List Level → ℚ → ℚ → ℚ → ℚ × ℚ × ℚ
  | [], remaining, cost, maxPrice => (remaining, cost, maxPrice)
  | l :: rest, remaining, cost, maxPrice =>
    if 0 < remaining then
      let take := min remaining l.size
      if take ≤ 0 then sweepAsks rest remaining cost maxPrice
      else sweepAsks rest (remaining - take) (cost + take * l.price) l.price
    else (remaining, cost, maxPrice)

/-- `costToBuySharesFromAsks(asks, shares, feeBps)` from src/engine.js:
sweep the asks best-first; fail (`null`) unless at most `1e-9` shares remain
unfilled; report the notional times the fee multiplier. -/
def costToBuySharesFromAsks (asks : List Level) (shares feeBps : ℚ) : Option BuyFill :=
  if asks = [] then none
  else if shares ≤ 0 then none
  else
    let r := sweepAsks asks shares 0 0
    if eps9 < r.1 then none
    else some ⟨r.2.1 * (1 + feeBps / 10000), r.2.2⟩

/-- Shares left unfilled by the buy sweep for a request of `shares`. -/
def buyRemaining (asks : List Level) (shares : ℚ) : ℚ := (sweepAsks asks shares 0 0).1

/-- Pre-fee notional accumulated by the buy sweep for a request of `shares`. -/
def buyNotional (asks : List Level) (shares : ℚ) : ℚ := (sweepAsks asks shares 0 0).2.1

/-- Shares actually consumed from the ladder by the buy sweep. -/
def buyFilledShares (asks : List Level) (shares : ℚ) : ℚ :=
  shares - buyRemaining asks shares

/-- `applyTakerFeeOnSell(proceedsUsdc, feeBps)` from src/engine.js. -/
def applyTakerFeeOnSell (proceedsUsdc feeBps : ℚ) : ℚ :=
  proceedsUsdc * (1 - feeBps / 10000)

/-- `applyTakerFeeOnBuy(amountUsdc, feeBps)` from src/engine.js. -/
def applyTakerFeeOnBuy (amountUsdc feeBps : ℚ) : ℚ :=
  amountUsdc * (1 + feeBps / 10000)

/-- Successful result of `proceedsFromSellingSharesToBids` (engine.js). -/
structure SellFill where
  gross : ℚ
  proceeds : ℚ
  minFilledPrice : Option ℚ
deriving Repr, DecidableEq

/-- The loop of `proceedsFromSellingSharesToBids` (src/engine.js lines
491-513): like the ask sweep but *breaking* (not skipping) at the first level
priced below `minPrice01`; state `(remaining, gross, minFilled)`. -/
def sweepBids : List Level → ℚ → ℚ → ℚ → Option ℚ → ℚ × ℚ × Option ℚ
  | [], _, remaining, gross, minFilled => (remaining, gross, minFilled)
  | l :: rest, minPrice01, remaining, gross, minFilled =>
    if 0 < remaining then
      if l.price < minPrice01 then (remaining, gross, minFilled)
      else
        let take := min remaining l.size
        if take ≤ 0 then sweepBids rest minPrice01 remaining gross minFilled
        else sweepBids rest minPrice01 (remaining - take) (gross + take * l.price) (some l.price)
    else (remaining, gross, minFilled)

/-- `proceedsFromSellingSharesToBids(bids, shares, feeBps, minPrice01)` from
src/engine.js. -/
def proceedsFromSellingSharesToBids (bids : List Level) (shares feeBps minPrice01 : ℚ) :
    Option SellFill :=
  if bids = [] then none
  else if shares ≤ 0 then none
  else
    let r := sweepBids bids minPrice01 shares 0 none
    if eps9 < r.1 then none
    else some ⟨r.2.1, applyTakerFeeOnSell r.2.1 feeBps, r.2.2⟩

/-- Shares left unfilled by the bid sweep. -/
def sellRemaining (bids : List Level) (minPrice01 shares : ℚ) : ℚ :=
  (sweepBids bids minPrice01 shares 0 none).1

/-- Shares actually consumed by the bid sweep. -/
def sellFilledShares (bids : List Level) (minPrice01 shares : ℚ) : ℚ :=
  shares - sellRemaining bids minPrice01 shares

/-- `clampInt(n, min, max)` from src/engine.js. -/
def clampInt (n : ℚ) (lo hi : ℤ) : ℤ := max lo (min hi ⌊n⌋)

/-- Successful result of `maxSharesForBudget` (engine.js). -/
structure BudgetFill where
  shares : ℤ
  cost : ℚ
  maxPrice : ℚ
deriving Repr, DecidableEq

/-- The `while (lo <= hi)` binary-search loop of `maxSharesForBudget`
(src/engine.js lines 469-484), run with enough fuel for the shrinking
`[lo, hi]` interval (the caller passes `(hi + 1 - lo).toNat`, an upper bound
on the number of iterations). -/
def budgetSearch (asks : List Level) (feeBps maxUsdc : ℚ) :
    ℕ → ℤ → ℤ → Option BudgetFill → Option BudgetFill
  | 0, _, _, best => best
  | fuel + 1, lo, hi, best =>
    if lo ≤ hi then
      let mid := Int.fdiv (lo + hi) 2
      match costToBuySharesFromAsks asks (mid : ℚ) feeBps with
      | none => budgetSearch asks feeBps maxUsdc fuel lo (mid - 1) best
      | some fill =>
        if fill.cost ≤ maxUsdc then
          budgetSearch asks feeBps maxUsdc fuel (mid + 1) hi
            (some ⟨mid, fill.cost, fill.maxPrice⟩)
        else budgetSearch asks feeBps maxUsdc fuel lo (mid - 1) best
    else best

/-- `maxSharesForBudget(asks, feeBps, maxUsdc, minShares)` from src/engine.js
lines 458-487. -/
def maxSharesForBudget (asks : List Level) (feeBps maxUsdc : ℚ) (minShares : ℤ) :
    Option BudgetFill :=
  match asks with
  | [] => none
  | a0 :: _ =>
    if a0.price ≤ 0 ∨ maxUsdc ≤ 0 then none
    else
      let totalSize : ℤ := ⌊sumSizes asks⌋
      if totalSize < minShares then none
      else
        let approxPerShare := a0.price * (1 + feeBps / 10000)
        let budgetBound : ℤ := if 0 < approxPerShare then ⌊maxUsdc / approxPerShare⌋ else 0
        let hi := clampInt ((min totalSize budgetBound : ℤ) : ℚ) 0 1000000000
        if hi < minShares then none
        else budgetSearch asks feeBps maxUsdc (hi + 1 - minShares).toNat minShares hi none

end PolymarketArb

namespace PolymarketArb

/-! ## Basic lemmas about the buy sweep -/

theorem sweepAsks_fst_indep (asks : List Level) :
    ∀ r c m c' m', (sweepAsks asks r c m).1 = (sweepAsks asks r c' m').1 := by
  induction asks with
  | nil => intro r c m c' m'; rfl
  | cons l rest ih =>
    intro r c m c' m'
    by_cases hr : 0 < r
    · by_cases ht : min r l.size ≤ 0
      · simpa [sweepAsks, hr, ht] using ih r c m c' m'
      · simpa [sweepAsks, hr, ht] using
          ih (r - min r l.size) (c + min r l.size * l.price) l.price
            (c' + min r l.size * l.price) l.price
    · simp [sweepAsks, hr]

theorem sweepAsks_cost_acc (asks : List Level) :
    ∀ r c m, (sweepAsks asks r c m).2.1 = c + (sweepAsks asks r 0 0).2.1 := by
  induction asks with
  | nil => intro r c m; simp [sweepAsks]
  | cons l rest ih =>
    intro r c m
    by_cases hr : 0 < r
    · by_cases ht : min r l.size ≤ 0
      · simp only [sweepAsks, hr, if_true, ht]
        rw [ih r c m, ih r 0 0]
      · simp only [sweepAsks, hr, if_true, if_neg ht]
        rw [ih (r - min r l.size) (c + min r l.size * l.price) l.price,
          ih (r - min r l.size) (0 + min r l.size * l.price) l.price]
        ring
    · simp [sweepAsks, hr]

theorem buyRemaining_nonneg (asks : List Level) :
    ∀ r c m, 0 ≤ r → 0 ≤ (sweepAsks asks r c m).1 := by
  induction asks with
  | nil => intro r c m h; exact h
  | cons l rest ih =>
    intro r c m h
    by_cases hr : 0 < r
    · by_cases ht : min r l.size ≤ 0
      · simpa [sweepAsks, hr, ht] using ih r c m h
      · simp only [sweepAsks, hr, if_true, if_neg ht]
        exact ih _ _ _ (by have := min_le_left r l.size; linarith)
    · simp [sweepAsks, hr]; exact h

theorem buyRemaining_le (asks : List Level) :
    ∀ r c m, (sweepAsks asks r c m).1 ≤ r := by
  induction asks with
  | nil => intro r c m; exact le_refl r
  | cons l rest ih =>
    intro r c m
    by_cases hr : 0 < r
    · by_cases ht : min r l.size ≤ 0
      · simpa [sweepAsks, hr, ht] using ih r c m
      · simp only [sweepAsks, hr, if_true, if_neg ht]
        have h1 := ih (r - min r l.size) (c + min r l.size * l.price) l.price
        have h2 : ¬ min r l.size ≤ 0 := ht
        push_neg at h2
        linarith
    · simp [sweepAsks, hr]

/-- With strictly positive sizes the sweep consumes exactly
`min r (sumSizes asks)` shares: the residual is `max (r - sumSizes) 0`. -/
theorem buyRemaining_eq_of_pos_sizes (asks : List Level)
    (hs : ∀ l ∈ asks, 0 < l.size) :
    ∀ r c m, 0 ≤ r → (sweepAsks asks r c m).1 = max (r - sumSizes asks) 0 := by
  induction asks with
  | nil =>
    intro r c m h
    simp only [sweepAsks, sumSizes, List.map_nil, List.sum_nil, sub_zero]
    rw [max_eq_left h]
  | cons l rest ih =>
    intro r c m h
    have hl : 0 < l.size := hs l (List.mem_cons_self l rest)
    have hrest : ∀ x ∈ rest, 0 < x.size := fun x hx => hs x (List.mem_cons_of_mem l hx)
    have hsum : 0 ≤ sumSizes rest := by
      have : ∀ x ∈ rest, 0 ≤ x.size := fun x hx => le_of_lt (hrest x hx)
      simp only [sumSizes]
      exact List.sum_nonneg (by
        intro q hq
        obtain ⟨x, hx, rfl⟩ := List.mem_map.1 hq
        exact this x hx)
    have hsumcons : sumSizes (l :: rest) = l.size + sumSizes rest := by
      simp [sumSizes]
    by_cases hr : 0 < r
    · have ht : ¬ min r l.size ≤ 0 := by
        push_neg
        exact lt_min hr hl
      simp only [sweepAsks, hr, if_true, if_neg ht]
      rw [ih hrest (r - min r l.size) _ _ (by have := min_le_left r l.size; linarith)]
      rw [hsumcons]
      rcases le_total r l.size with hc | hc
      · rw [min_eq_left hc]
        have : r - r - sumSizes rest ≤ 0 := by linarith
        have h2 : r - (l.size + sumSizes rest) ≤ 0 := by linarith
        rw [max_eq_right (by linarith), max_eq_right (by linarith)]
      · rw [min_eq_right hc]
        congr 1
        ring
    · have hr0 : r = 0 := le_antisymm (not_lt.1 hr) h
      subst hr0
      simp only [sweepAsks, lt_irrefl, if_false]
      rw [hsumcons]
      rw [max_eq_right (by linarith)]

theorem buyNotional_nonneg (asks : List Level) (hp : ∀ l ∈ asks, 0 ≤ l.price) :
    ∀ r, 0 ≤ buyNotional asks r := by
  induction asks with
  | nil => intro r; simp [buyNotional, sweepAsks]
  | cons l rest ih =>
    intro r
    have hl : 0 ≤ l.price := hp l (List.mem_cons_self l rest)
    have hrest : ∀ x ∈ rest, 0 ≤ x.price := fun x hx => hp x (List.mem_cons_of_mem l hx)
    by_cases hr : 0 < r
    · by_cases ht : min r l.size ≤ 0
      · simpa [buyNotional, sweepAsks, hr, ht] using ih hrest r
      · push_neg at ht
        simp only [buyNotional, sweepAsks, hr, if_true, if_neg (not_le.2 ht)]
        rw [sweepAsks_cost_acc]
        have h1 := ih hrest (r - min r l.size)
        have h2 : 0 ≤ min r l.size * l.price := mul_nonneg (le_of_lt ht) hl
        unfold buyNotional at h1
        linarith
    · simp [buyNotional, sweepAsks, hr]

/-- The pre-fee notional accumulated by the sweep is monotone in the number of
requested shares (for nonnegative prices). -/
theorem buyNotional_mono (asks : List Level) (hp : ∀ l ∈ asks, 0 ≤ l.price) :
    ∀ r r', 0 ≤ r → r ≤ r' → buyNotional asks r ≤ buyNotional asks r' := by
  induction asks with
  | nil => intro r r' _ _; simp [buyNotional, sweepAsks]
  | cons l rest ih =>
    intro r r' hr0 hrr
    have hl : 0 ≤ l.price := hp l (List.mem_cons_self l rest)
    have hrest : ∀ x ∈ rest, 0 ≤ x.price := fun x hx => hp x (List.mem_cons_of_mem l hx)
    by_cases hr : 0 < r
    · have hr' : 0 < r' := lt_of_lt_of_le hr hrr
      by_cases ht : min r l.size ≤ 0
      · -- the level is skipped for both requests: min r l.size ≤ 0 with 0 < r
        -- forces l.size ≤ 0, hence min r' l.size ≤ 0 as well
        have hsz : l.size ≤ 0 := by
          rcases le_total r l.size with hc | hc
          · rw [min_eq_left hc] at ht; linarith
          · rwa [min_eq_right hc] at ht
        have ht' : min r' l.size ≤ 0 := le_trans (min_le_right r' l.size) hsz
        simp only [buyNotional, sweepAsks, hr, hr', if_true, ht, ht', if_true]
        exact ih hrest r r' hr0 hrr
      · have hsz : 0 < l.size := by
          push_neg at ht
          exact lt_of_lt_of_le ht (min_le_right r l.size)
        have ht' : ¬ min r' l.size ≤ 0 := not_le.2 (lt_min hr' hsz)
        simp only [buyNotional, sweepAsks, hr, hr', if_true, if_neg ht, if_neg ht']
        have e1 := sweepAsks_cost_acc rest (r - min r l.size)
          (0 + min r l.size * l.price) l.price
        have e2 := sweepAsks_cost_acc rest (r' - min r' l.size)
          (0 + min r' l.size * l.price) l.price
        have htake : min r l.size ≤ min r' l.size := min_le_min hrr (le_refl _)
        have hmul : min r l.size * l.price ≤ min r' l.size * l.price :=
          mul_le_mul_of_nonneg_right htake hl
        have hrec : buyNotional rest (r - min r l.size) ≤
            buyNotional rest (r' - min r' l.size) := by
          apply ih hrest
          · have := min_le_left r l.size; linarith
          · rcases le_total r l.size with hc | hc
            · rw [min_eq_left hc]
              rcases le_total r' l.size with hc' | hc'
              · rw [min_eq_left hc']; linarith
              · rw [min_eq_right hc']; linarith
            · rw [min_eq_right hc]
              rcases le_total r' l.size with hc' | hc'
              · rw [min_eq_left hc']; linarith
              · rw [min_eq_right hc']; linarith
        unfold buyNotional at hrec
        linarith [e1, e2, hrec, hmul]
    · -- r = 0: left notional is 0, right is nonnegative
      have hr0' : r = 0 := le_antisymm (not_lt.1 hr) hr0
      subst hr0'
      simp only [buyNotional, sweepAsks, lt_irrefl, if_false]
      exact buyNotional_nonneg (l :: rest) hp r'

/-- Every taken level is priced at least `q`, so the notional is bounded below
by (filled shares) × `q`. -/
theorem buyNotional_lower_bound (asks : List Level) (q : ℚ)
    (hp : ∀ l ∈ asks, q ≤ l.price) :
    ∀ r, 0 ≤ r → (r - buyRemaining asks r) * q ≤ buyNotional asks r := by
  induction asks with
  | nil => intro r _; simp [buyNotional, buyRemaining, sweepAsks]
  | cons l rest ih =>
    intro r hr0
    have hl : q ≤ l.price := hp l (List.mem_cons_self l rest)
    have hrest : ∀ x ∈ rest, q ≤ x.price := fun x hx => hp x (List.mem_cons_of_mem l hx)
    by_cases hr : 0 < r
    · by_cases ht : min r l.size ≤ 0
      · simpa [buyNotional, buyRemaining, sweepAsks, hr, ht] using ih hrest r hr0
      · push_neg at ht
        simp only [buyNotional, buyRemaining, sweepAsks, hr, if_true, if_neg (not_le.2 ht)]
        rw [sweepAsks_cost_acc, sweepAsks_fst_indep rest (r - min r l.size)
          (0 + min r l.size * l.price) l.price 0 0]
        have hrec := ih hrest (r - min r l.size) (by have := min_le_left r l.size; linarith)
        unfold buyNotional buyRemaining at hrec
        have hmul : min r l.size * q ≤ min r l.size * l.price :=
          mul_le_mul_of_nonneg_left hl (le_of_lt ht)
        nlinarith [hrec, hmul]
    · have hr0' : r = 0 := le_antisymm (not_lt.1 hr) hr0
      subst hr0'
      simp [buyNotional, buyRemaining, sweepAsks]

/-! ## Success-case characterizations of the two sweep functions -/

theorem costToBuy_some_elim {asks : List Level} {s f : ℚ} {fill : BuyFill}
    (h : costToBuySharesFromAsks asks s f = some fill) :
    asks ≠ [] ∧ 0 < s ∧ buyRemaining asks s ≤ eps9 ∧
      fill.cost = buyNotional asks s * (1 + f / 10000) := by
  simp only [costToBuySharesFromAsks] at h
  split_ifs at h with h1 h2 h3
  obtain rfl := Option.some.inj h
  exact ⟨h1, not_le.1 h2, not_lt.1 h3, rfl⟩

theorem costToBuy_some_intro (asks : List Level) (s f : ℚ)
    (hne : asks ≠ []) (hs : 0 < s) (hr : buyRemaining asks s ≤ eps9) :
    costToBuySharesFromAsks asks s f =
      some ⟨buyNotional asks s * (1 + f / 10000), (sweepAsks asks s 0 0).2.2⟩ := by
  have hr' : ¬ eps9 < (sweepAsks asks s 0 0).1 := not_lt.2 hr
  simp only [costToBuySharesFromAsks]
  rw [if_neg hne, if_neg (not_le.2 hs), if_neg hr']
  rfl

theorem proceeds_some_elim {bids : List Level} {s f p : ℚ} {fill : SellFill}
    (h : proceedsFromSellingSharesToBids bids s f p = some fill) :
    bids ≠ [] ∧ 0 < s ∧ sellRemaining bids p s ≤ eps9 ∧
      fill.gross = (sweepBids bids p s 0 none).2.1 ∧
      fill.proceeds = applyTakerFeeOnSell fill.gross f := by
  simp only [proceedsFromSellingSharesToBids] at h
  split_ifs at h with h1 h2 h3
  obtain rfl := Option.some.inj h
  exact ⟨h1, not_le.1 h2, not_lt.1 h3, rfl, rfl⟩

/-! ## Claim C2: monotonicity of the fee-inclusive buy cost -/

/-- C2 (corrected: the fee multiplier `1 + feeBps/10000` must be nonnegative,
i.e. `feeBps ≥ -10000`; any nonnegative fee rate qualifies).  For every ask
ladder with positive prices and sizes and every share count `N ≥ 1` for which
both sweeps succeed, `costToBuySharesFromAsks` returns a cost for `N` shares
that is at most its cost for `N + 1` shares. -/
theorem costToBuy_monotone_in_shares (asks : List Level) (feeBps N : ℚ)
    (hval : ∀ l ∈ asks, 0 < l.price ∧ 0 < l.size)
    (hfee : -10000 ≤ feeBps) (hN : 1 ≤ N)
    (f1 f2 : BuyFill)
    (h1 : costToBuySharesFromAsks asks N feeBps = some f1)
    (h2 : costToBuySharesFromAsks asks (N + 1) feeBps = some f2) :
    f1.cost ≤ f2.cost := by
  obtain ⟨-, -, -, hc1⟩ := costToBuy_some_elim h1
  obtain ⟨-, -, -, hc2⟩ := costToBuy_some_elim h2
  have hk : 0 ≤ 1 + feeBps / 10000 := by linarith
  have hmono : buyNotional asks N ≤ buyNotional asks (N + 1) :=
    buyNotional_mono asks (fun l hl => le_of_lt (hval l hl).1) N (N + 1)
      (by linarith) (by linarith)
  rw [hc1, hc2]
  exact mul_le_mul_of_nonneg_right hmono hk

/-- C2 witness: a concrete instance of `costToBuy_monotone_in_shares`. -/
theorem costToBuy_monotone_in_shares_witness :
    costToBuySharesFromAsks [⟨1/2, 10⟩] 1 0 = some ⟨1/2, 1/2⟩ ∧
    costToBuySharesFromAsks [⟨1/2, 10⟩] 2 0 = some ⟨1, 1/2⟩ ∧
    (BuyFill.mk (1/2) (1/2)).cost ≤ (BuyFill.mk 1 (1/2)).cost := by
  have e1 : costToBuySharesFromAsks [⟨1/2, 10⟩] 1 0 = some ⟨1/2, 1/2⟩ := by
    with_unfolding_all rfl
  have e2 : costToBuySharesFromAsks [⟨1/2, 10⟩] (1 + 1) 0 = some ⟨1, 1/2⟩ := by
    with_unfolding_all rfl
  refine ⟨e1, by with_unfolding_all rfl, ?_⟩
  exact costToBuy_monotone_in_shares [⟨1/2, 10⟩] 0 1
    (by with_unfolding_all decide) (by norm_num) (le_refl 1) _ _ e1 e2

/-- C2 counterexample: with a fee rate of `-20000` bps (fee multiplier `-1`)
the ladder `[{price 1/2, size 10}]` — positive prices and sizes — has
`costToBuy` DEcreasing from 1 to 2 shares, refuting the claim's "every fee
rate" quantification. -/
theorem costToBuy_monotone_counterexample :
    costToBuySharesFromAsks [⟨1/2, 10⟩] 1 (-20000) = some ⟨-(1/2), 1/2⟩ ∧
    costToBuySharesFromAsks [⟨1/2, 10⟩] (1 + 1) (-20000) = some ⟨-1, 1/2⟩ ∧
    ¬ ((BuyFill.mk (-(1/2)) (1/2)).cost ≤ (BuyFill.mk (-1) (1/2)).cost) ∧
    (∀ l ∈ [Level.mk (1/2) 10], 0 < l.price ∧ 0 < l.size) ∧ (1 : ℚ) ≤ 1 := by
  refine ⟨?_, ?_, ?_, ?_, le_refl 1⟩
  · with_unfolding_all rfl
  · with_unfolding_all rfl
  · with_unfolding_all decide
  · with_unfolding_all decide

/-! ## Basic lemmas about the bid sweep -/

theorem sellRemaining_nonneg (bids : List Level) :
    ∀ p r g mf, 0 ≤ r → 0 ≤ (sweepBids bids p r g mf).1 := by
  induction bids with
  | nil => intro p r g mf h; exact h
  | cons l rest ih =>
    intro p r g mf h
    by_cases hr : 0 < r
    · by_cases hb : l.price < p
      · simpa [sweepBids, hr, hb] using h
      · by_cases ht : min r l.size ≤ 0
        · simpa [sweepBids, hr, hb, ht] using ih p r g mf h
        · simp only [sweepBids, hr, if_true, if_neg hb, if_neg ht]
          exact ih p _ _ _ (by have := min_le_left r l.size; linarith)
    · simp [sweepBids, hr]; exact h

theorem sellRemaining_le (bids : List Level) :
    ∀ p r g mf, (sweepBids bids p r g mf).1 ≤ r := by
  induction bids with
  | nil => intro p r g mf; exact le_refl r
  | cons l rest ih =>
    intro p r g mf
    by_cases hr : 0 < r
    · by_cases hb : l.price < p
      · simp [sweepBids, hr, hb]
      · by_cases ht : min r l.size ≤ 0
        · simpa [sweepBids, hr, hb, ht] using ih p r g mf
        · simp only [sweepBids, hr, if_true, if_neg hb, if_neg ht]
          have h1 := ih p (r - min r l.size) (g + min r l.size * l.price) (some l.price)
          push_neg at ht
          linarith
    · simp [sweepBids, hr]

/-! ## Integrality of the sweep residual -/

theorem sweepAsks_remaining_int (asks : List Level)
    (hs : ∀ l ∈ asks, ∃ z : ℤ, l.size = z) :
    ∀ (r c m : ℚ), (∃ z : ℤ, r = (z : ℚ)) →
      ∃ z : ℤ, (sweepAsks asks r c m).1 = (z : ℚ) := by
  induction asks with
  | nil => intro r c m h; exact h
  | cons l rest ih =>
    intro r c m h
    obtain ⟨zr, rfl⟩ := h
    obtain ⟨zs, hzs⟩ := hs l (List.mem_cons_self l rest)
    have hrest : ∀ x ∈ rest, ∃ z : ℤ, x.size = z :=
      fun x hx => hs x (List.mem_cons_of_mem l hx)
    by_cases hr : 0 < (zr : ℚ)
    · by_cases ht : min (zr : ℚ) l.size ≤ 0
      · simp only [sweepAsks, hr, if_true, ht, if_true]
        exact ih hrest _ _ _ ⟨zr, rfl⟩
      · simp only [sweepAsks, hr, if_true, if_neg ht]
        refine ih hrest _ _ _ ⟨zr - min zr zs, ?_⟩
        rw [hzs]
        push_cast
        rfl
    · simp only [sweepAsks, hr, if_false]
      exact ⟨zr, rfl⟩

theorem sweepBids_remaining_int (bids : List Level)
    (hs : ∀ l ∈ bids, ∃ z : ℤ, l.size = z) :
    ∀ (p r g : ℚ) (mf : Option ℚ), (∃ z : ℤ, r = (z : ℚ)) →
      ∃ z : ℤ, (sweepBids bids p r g mf).1 = (z : ℚ) := by
  induction bids with
  | nil => intro p r g mf h; exact h
  | cons l rest ih =>
    intro p r g mf h
    obtain ⟨zr, rfl⟩ := h
    obtain ⟨zs, hzs⟩ := hs l (List.mem_cons_self l rest)
    have hrest : ∀ x ∈ rest, ∃ z : ℤ, x.size = z :=
      fun x hx => hs x (List.mem_cons_of_mem l hx)
    by_cases hr : 0 < (zr : ℚ)
    · by_cases hb : l.price < p
      · simp only [sweepBids, hr, if_true, hb, if_true]
        exact ⟨zr, rfl⟩
      · by_cases ht : min (zr : ℚ) l.size ≤ 0
        · simp only [sweepBids, hr, if_true, if_neg hb, ht, if_true]
          exact ih hrest _ _ _ _ ⟨zr, rfl⟩
        · simp only [sweepBids, hr, if_true, if_neg hb, if_neg ht]
          refine ih hrest _ _ _ _ ⟨zr - min zr zs, ?_⟩
          rw [hzs]
          push_cast
          rfl
    · simp only [sweepBids, hr, if_false]
      exact ⟨zr, rfl⟩

theorem int_in_eps_band_eq_zero {x : ℚ} (hz : ∃ z : ℤ, x = z)
    (h0 : 0 ≤ x) (he : x ≤ eps9) : x = 0 := by
  obtain ⟨z, rfl⟩ := hz
  have h1 : (0 : ℤ) ≤ z := by exact_mod_cast h0
  have h2 : (z : ℚ) < 1 := lt_of_le_of_lt he (by norm_num [eps9])
  have h3 : z < 1 := by exact_mod_cast h2
  have : z = 0 := by omega
  simp [this]

/-! ## Claim C3: a non-null sweep result is never a materially short fill -/

/-- C3 (corrected: exactness holds only up to the code's `1e-9` residual
tolerance).  A non-null result of `costToBuySharesFromAsks` or
`proceedsFromSellingSharesToBids` consumes at least `shares - 1e-9` and at
most `shares`; when every level size and the request are whole numbers the
fill is exact. -/
theorem sweeps_fill_within_tolerance (asks bids : List Level)
    (shares feeBps minPrice01 : ℚ) :
    (∀ fl : BuyFill, costToBuySharesFromAsks asks shares feeBps = some fl →
      shares - eps9 ≤ buyFilledShares asks shares ∧
      buyFilledShares asks shares ≤ shares ∧
      ((∀ l ∈ asks, ∃ z : ℤ, l.size = z) → (∃ z : ℤ, shares = z) →
        buyFilledShares asks shares = shares)) ∧
    (∀ fl : SellFill, proceedsFromSellingSharesToBids bids shares feeBps minPrice01 = some fl →
      shares - eps9 ≤ sellFilledShares bids minPrice01 shares ∧
      sellFilledShares bids minPrice01 shares ≤ shares ∧
      ((∀ l ∈ bids, ∃ z : ℤ, l.size = z) → (∃ z : ℤ, shares = z) →
        sellFilledShares bids minPrice01 shares = shares)) := by
  constructor
  · intro fl h
    obtain ⟨-, hs, hr, -⟩ := costToBuy_some_elim h
    have h0 : 0 ≤ buyRemaining asks shares :=
      buyRemaining_nonneg asks shares 0 0 (le_of_lt hs)
    refine ⟨by unfold buyFilledShares; linarith, by unfold buyFilledShares; linarith, ?_⟩
    intro hsz hsh
    have hint : ∃ z : ℤ, buyRemaining asks shares = z :=
      sweepAsks_remaining_int asks hsz shares 0 0 hsh
    have := int_in_eps_band_eq_zero hint h0 hr
    unfold buyFilledShares
    linarith
  · intro fl h
    obtain ⟨-, hs, hr, -, -⟩ := proceeds_some_elim h
    have h0 : 0 ≤ sellRemaining bids minPrice01 shares :=
      sellRemaining_nonneg bids minPrice01 shares 0 none (le_of_lt hs)
    refine ⟨by unfold sellFilledShares; linarith, by unfold sellFilledShares; linarith, ?_⟩
    intro hsz hsh
    have hint : ∃ z : ℤ, sellRemaining bids minPrice01 shares = z :=
      sweepBids_remaining_int bids hsz minPrice01 shares 0 none hsh
    have := int_in_eps_band_eq_zero hint h0 hr
    unfold sellFilledShares
    linarith

/-- C3 witness: both sweeps on `[{price 1/2, size 3}]` for 2 shares succeed
and fill exactly. -/
theorem sweeps_fill_within_tolerance_witness :
    costToBuySharesFromAsks [⟨1/2, 3⟩] 2 0 = some ⟨1, 1/2⟩ ∧
    proceedsFromSellingSharesToBids [⟨1/2, 3⟩] 2 0 0 = some ⟨1, 1, some (1/2)⟩ ∧
    buyFilledShares [⟨1/2, 3⟩] 2 = 2 ∧
    sellFilledShares [⟨1/2, 3⟩] 0 2 = 2 := by
  have e1 : costToBuySharesFromAsks [⟨1/2, 3⟩] 2 0 = some ⟨1, 1/2⟩ := by
    with_unfolding_all rfl
  have e2 : proceedsFromSellingSharesToBids [⟨1/2, 3⟩] 2 0 0 = some ⟨1, 1, some (1/2)⟩ := by
    with_unfolding_all rfl
  have hmain := sweeps_fill_within_tolerance [⟨1/2, 3⟩] [⟨1/2, 3⟩] 2 0 0
  have hint : ∀ l ∈ [Level.mk (1/2) 3], ∃ z : ℤ, l.size = (z : ℚ) := by
    intro l hl
    rw [List.mem_singleton] at hl
    subst hl
    exact ⟨3, by norm_num⟩
  refine ⟨e1, e2, ?_, ?_⟩
  · exact (hmain.1 _ e1).2.2 hint ⟨2, by norm_num⟩
  · exact (hmain.2 _ e2).2.2 hint ⟨2, by norm_num⟩

/-- C3 counterexample: with the (data-model-valid) single-level ladder of size
`2 - 1e-10`, requesting 2 shares is reported as a *successful* fill although
only `2 - 1e-10 ≠ 2` shares are consumed: the claim's "consume exactly the
requested number of shares or fail" is violated (the shortfall merely lies
under the `1e-9` tolerance). -/
theorem sweeps_short_fill_counterexample :
    costToBuySharesFromAsks [⟨1/2, 2 - 1/10000000000⟩] 2 0 =
      some ⟨19999999999/20000000000, 1/2⟩ ∧
    buyFilledShares [⟨1/2, 2 - 1/10000000000⟩] 2 = 2 - 1/10000000000 ∧
    ¬ buyFilledShares [⟨1/2, 2 - 1/10000000000⟩] 2 = 2 := by
  refine ⟨?_, ?_, ?_⟩
  · with_unfolding_all rfl
  · with_unfolding_all rfl
  · with_unfolding_all decide

/-! ## Claim C9: round trip on a mirrored ladder -/

/-- With `minPrice01 = 0` and nonnegative prices the bid sweep never hits its
break condition and coincides with the ask sweep on residual and gross. -/
theorem sweepBids_zero_eq_sweepAsks (bids : List Level)
    (hp : ∀ l ∈ bids, 0 ≤ l.price) :
    ∀ (r g : ℚ) (mf : Option ℚ) (m : ℚ),
      (sweepBids bids 0 r g mf).1 = (sweepAsks bids r g m).1 ∧
      (sweepBids bids 0 r g mf).2.1 = (sweepAsks bids r g m).2.1 := by
  induction bids with
  | nil => intro r g mf m; exact ⟨rfl, rfl⟩
  | cons l rest ih =>
    intro r g mf m
    have hl : 0 ≤ l.price := hp l (List.mem_cons_self l rest)
    have hrest : ∀ x ∈ rest, 0 ≤ x.price := fun x hx => hp x (List.mem_cons_of_mem l hx)
    have hb : ¬ l.price < 0 := not_lt.2 hl
    by_cases hr : 0 < r
    · by_cases ht : min r l.size ≤ 0
      · simp only [sweepBids, sweepAsks, hr, if_true, if_neg hb, ht, if_true]
        exact ih hrest r g mf m
      · simp only [sweepBids, sweepAsks, hr, if_true, if_neg hb, if_neg ht]
        exact ih hrest (r - min r l.size) (g + min r l.size * l.price) (some l.price) l.price
    · simp [sweepBids, sweepAsks, hr]

/-- C9 (confirmed, reading "ask ladder" with the data model of the spec:
levels have positive prices).  On a mirrored ladder (bids literally the same
level list as the asks), for any fee rate `≥ 0` and any share count for which
both sweeps succeed, selling the shares yields at most what buying them
cost. -/
theorem roundTrip_proceeds_le_cost (asks : List Level) (feeBps N : ℚ)
    (hp : ∀ l ∈ asks, 0 < l.price) (hfee : 0 ≤ feeBps)
    (bf : BuyFill) (sf : SellFill)
    (hb : costToBuySharesFromAsks asks N feeBps = some bf)
    (hs : proceedsFromSellingSharesToBids asks N feeBps 0 = some sf) :
    sf.proceeds ≤ bf.cost := by
  obtain ⟨-, -, -, hcost⟩ := costToBuy_some_elim hb
  obtain ⟨-, -, -, hgross, hproc⟩ := proceeds_some_elim hs
  have hp' : ∀ l ∈ asks, 0 ≤ l.price := fun l hl => le_of_lt (hp l hl)
  have heq := (sweepBids_zero_eq_sweepAsks asks hp' N 0 none 0).2
  have hnn : 0 ≤ buyNotional asks N := buyNotional_nonneg asks hp' N
  have hgross' : sf.gross = buyNotional asks N := by
    rw [hgross, heq]; rfl
  rw [hcost, hproc, applyTakerFeeOnSell, hgross']
  have hx : 0 ≤ feeBps / 10000 := by positivity
  nlinarith [mul_nonneg hnn hx]

/-- C9 witness: `costToBuy`/`proceedsFromSelling` on the mirrored ladder
`[{price 1/2, size 3}]`, 2 shares, fee 100 bps. -/
theorem roundTrip_proceeds_le_cost_witness :
    costToBuySharesFromAsks [⟨1/2, 3⟩] 2 100 = some ⟨101/100, 1/2⟩ ∧
    proceedsFromSellingSharesToBids [⟨1/2, 3⟩] 2 100 0 = some ⟨1, 99/100, some (1/2)⟩ ∧
    (SellFill.mk 1 (99/100) (some (1/2))).proceeds ≤ (BuyFill.mk (101/100) (1/2)).cost := by
  have e1 : costToBuySharesFromAsks [⟨1/2, 3⟩] 2 100 = some ⟨101/100, 1/2⟩ := by
    with_unfolding_all rfl
  have e2 : proceedsFromSellingSharesToBids [⟨1/2, 3⟩] 2 100 0 =
      some ⟨1, 99/100, some (1/2)⟩ := by
    with_unfolding_all rfl
  refine ⟨e1, e2, ?_⟩
  exact roundTrip_proceeds_le_cost [⟨1/2, 3⟩] 100 2
    (by with_unfolding_all decide) (by norm_num) _ _ e1 e2

/-! ## Claim C1: correctness of the budget binary search (integer ladders) -/

/-- `n` shares can be bought within budget: the sweep succeeds and its
fee-inclusive cost fits under `maxUsdc`. -/
def feasibleCount (asks : List Level) (feeBps maxUsdc : ℚ) (n : ℤ) : Prop :=
  ∃ fill : BuyFill,
    costToBuySharesFromAsks asks (n : ℚ) feeBps = some fill ∧ fill.cost ≤ maxUsdc

/-- A ladder whose level sizes are positive whole numbers has a whole-number
total size. -/
theorem sumSizes_nat (asks : List Level)
    (hint : ∀ l ∈ asks, ∃ k : ℕ, 0 < k ∧ l.size = (k : ℚ)) :
    ∃ t : ℕ, sumSizes asks = (t : ℚ) := by
  induction asks with
  | nil => exact ⟨0, by simp [sumSizes]⟩
  | cons l rest ih =>
    obtain ⟨k, -, hk⟩ := hint l (List.mem_cons_self l rest)
    obtain ⟨t, ht⟩ := ih (fun x hx => hint x (List.mem_cons_of_mem l hx))
    refine ⟨k + t, ?_⟩
    simp only [sumSizes, List.map_cons, List.sum_cons] at *
    rw [hk, ht]
    push_cast
    ring

theorem pairwise_head_le (a0 : Level) (rest : List Level)
    (hsort : (a0 :: rest).Pairwise fun a b => a.price ≤ b.price) :
    ∀ l ∈ a0 :: rest, a0.price ≤ l.price := by
  intro l hl
  rcases List.mem_cons.1 hl with rfl | hl'
  · exact le_refl _
  · exact (List.pairwise_cons.1 hsort).1 l hl'

/-- On an integer ladder, an integer request `1 ≤ n` fills (within the `1e-9`
tolerance) exactly when `n` is at most the total size; and then it fills with
no residue at all. -/
theorem int_ladder_fill (asks : List Level) (t : ℕ)
    (hsz : ∀ l ∈ asks, 0 < l.size)
    (htot : sumSizes asks = (t : ℚ)) (n : ℤ) (hn : 1 ≤ n) :
    (buyRemaining asks (n : ℚ) ≤ eps9 ↔ n ≤ (t : ℤ)) ∧
    (n ≤ (t : ℤ) → buyRemaining asks (n : ℚ) = 0) := by
  have h0 : (0 : ℚ) ≤ (n : ℚ) := by exact_mod_cast (by omega : (0:ℤ) ≤ n)
  have hrem : buyRemaining asks (n : ℚ) = max ((n : ℚ) - sumSizes asks) 0 :=
    buyRemaining_eq_of_pos_sizes asks hsz (n : ℚ) 0 0 h0
  constructor
  · constructor
    · intro h
      by_contra hgt
      push_neg at hgt
      have hq : (t : ℚ) + 1 ≤ (n : ℚ) := by exact_mod_cast hgt
      rw [hrem, htot] at h
      have : (1 : ℚ) ≤ max ((n : ℚ) - (t : ℚ)) 0 := le_max_of_le_left (by linarith)
      have : ¬ ((1:ℚ) ≤ eps9) := by norm_num [eps9]
      exact this (by linarith)
    · intro h
      have hq : (n : ℚ) ≤ (t : ℚ) := by exact_mod_cast h
      rw [hrem, htot, max_eq_right (by linarith)]
      norm_num [eps9]
  · intro h
    have hq : (n : ℚ) ≤ (t : ℚ) := by exact_mod_cast h
    rw [hrem, htot, max_eq_right (by linarith)]

/-- Feasibility is downward closed (above 1) on sorted integer ladders with a
nonnegative fee. -/
theorem feasible_downward (asks : List Level) (feeBps maxUsdc : ℚ)
    (hne : asks ≠ [])
    (hpos : ∀ l ∈ asks, 0 < l.price)
    (hint : ∀ l ∈ asks, ∃ k : ℕ, 0 < k ∧ l.size = (k : ℚ))
    (hfee : 0 ≤ feeBps)
    (n m : ℤ) (hn : 1 ≤ n) (hnm : n ≤ m)
    (hfeas : feasibleCount asks feeBps maxUsdc m) :
    feasibleCount asks feeBps maxUsdc n := by
  obtain ⟨fill, hfill, hcost⟩ := hfeas
  obtain ⟨-, hm, hrem, hc⟩ := costToBuy_some_elim hfill
  obtain ⟨t, ht⟩ := sumSizes_nat asks hint
  have hsz : ∀ l ∈ asks, 0 < l.size := by
    intro l hl
    obtain ⟨k, hk, hks⟩ := hint l hl
    rw [hks]
    exact_mod_cast hk
  have hm1 : 1 ≤ m := by
    by_contra hlt
    push_neg at hlt
    have : (m : ℚ) ≤ 0 := by exact_mod_cast (by omega : m ≤ 0)
    linarith
  have hmt : m ≤ (t : ℤ) := ((int_ladder_fill asks t hsz ht m hm1).1).1 hrem
  have hnt : n ≤ (t : ℤ) := le_trans hnm hmt
  have hrn : buyRemaining asks (n : ℚ) ≤ eps9 := by
    rw [(int_ladder_fill asks t hsz ht n hn).2 hnt]
    norm_num [eps9]
  refine ⟨_, costToBuy_some_intro asks (n : ℚ) feeBps hne
    (by exact_mod_cast (by omega : (0:ℤ) < n)) hrn, ?_⟩
  have hk : 0 ≤ 1 + feeBps / 10000 := by linarith
  have hmono : buyNotional asks (n : ℚ) ≤ buyNotional asks (m : ℚ) := by
    apply buyNotional_mono asks (fun l hl => le_of_lt (hpos l hl))
    · exact_mod_cast (by omega : (0:ℤ) ≤ n)
    · exact_mod_cast hnm
  calc buyNotional asks (n : ℚ) * (1 + feeBps / 10000)
      ≤ buyNotional asks (m : ℚ) * (1 + feeBps / 10000) :=
        mul_le_mul_of_nonneg_right hmono hk
    _ = fill.cost := hc.symm
    _ ≤ maxUsdc := hcost

/-- Invariant-based specification of the `while (lo <= hi)` binary-search loop
of `maxSharesForBudget`, proved by induction on the fuel.  `m0` is the
`minShares` lower bound; feasibility is assumed downward closed above `m0 ≥ 1`
and `best` carries the best hit so far. -/
theorem budgetSearch_spec (asks : List Level) (feeBps maxUsdc : ℚ) (m0 : ℤ)
    (hm0 : 1 ≤ m0)
    (hdc : ∀ n m : ℤ, 1 ≤ n → n ≤ m → feasibleCount asks feeBps maxUsdc m →
      feasibleCount asks feeBps maxUsdc n) :
    ∀ (fuel : ℕ) (lo hi : ℤ) (best : Option BudgetFill),
    (hi + 1 - lo).toNat ≤ fuel →
    m0 ≤ lo →
    (∀ n, m0 ≤ n → feasibleCount asks feeBps maxUsdc n →
      n ≤ hi ∨ ∃ b, best = some b ∧ n ≤ b.shares) →
    (best = none → lo = m0) →
    (∀ b, best = some b → m0 ≤ b.shares ∧
      costToBuySharesFromAsks asks (b.shares : ℚ) feeBps = some ⟨b.cost, b.maxPrice⟩ ∧
      b.cost ≤ maxUsdc ∧ lo = b.shares + 1) →
    (budgetSearch asks feeBps maxUsdc fuel lo hi best = none →
      ∀ n, m0 ≤ n → ¬ feasibleCount asks feeBps maxUsdc n) ∧
    (∀ b, budgetSearch asks feeBps maxUsdc fuel lo hi best = some b →
      m0 ≤ b.shares ∧
      costToBuySharesFromAsks asks (b.shares : ℚ) feeBps = some ⟨b.cost, b.maxPrice⟩ ∧
      b.cost ≤ maxUsdc ∧
      ∀ n, m0 ≤ n → feasibleCount asks feeBps maxUsdc n → n ≤ b.shares) := by
  intro fuel
  induction fuel with
  | zero =>
    intro lo hi best hfuel hlo hI2 hI3 hI4
    have hterm : hi < lo := by omega
    simp only [budgetSearch]
    constructor
    · intro hres n hn hfeas
      subst hres
      rcases hI2 n hn hfeas with hle | ⟨b, hb, -⟩
      · have := hI3 rfl
        omega
      · exact Option.noConfusion hb
    · intro b hres
      subst hres
      obtain ⟨h1, h2, h3, h4⟩ := hI4 b rfl
      refine ⟨h1, h2, h3, ?_⟩
      intro m hm hfeas
      rcases hI2 m hm hfeas with hle | ⟨b', hb', hsh⟩
      · omega
      · obtain rfl := Option.some.inj hb'
        exact hsh
  | succ fuel ih =>
    intro lo hi best hfuel hlo hI2 hI3 hI4
    by_cases hlh : lo ≤ hi
    · have hmid_eq : Int.fdiv (lo + hi) 2 = (lo + hi) / 2 := by
        rw [Int.fdiv_eq_ediv]
        omega
      set mid := Int.fdiv (lo + hi) 2 with hmid_def
      have hmid_lo : lo ≤ mid := by omega
      have hmid_hi : mid ≤ hi := by omega
      cases hcb : costToBuySharesFromAsks asks (mid : ℚ) feeBps with
      | none =>
        have hred : budgetSearch asks feeBps maxUsdc (fuel + 1) lo hi best =
            budgetSearch asks feeBps maxUsdc fuel lo (mid - 1) best := by
          simp only [budgetSearch, if_pos hlh, ← hmid_def, hcb]
        rw [hred]
        apply ih lo (mid - 1) best (by omega) hlo ?_ hI3 hI4
        intro n hn hfeas
        rcases hI2 n hn hfeas with hle | hb
        · left
          by_contra hgt
          push_neg at hgt
          have hmidn : mid ≤ n := by omega
          have : feasibleCount asks feeBps maxUsdc mid :=
            hdc mid n (by omega) hmidn hfeas
          obtain ⟨fill, hfill, -⟩ := this
          rw [hcb] at hfill
          exact Option.noConfusion hfill
        · right; exact hb
      | some fill =>
        by_cases hcost : fill.cost ≤ maxUsdc
        · have hred : budgetSearch asks feeBps maxUsdc (fuel + 1) lo hi best =
              budgetSearch asks feeBps maxUsdc fuel (mid + 1) hi
                (some ⟨mid, fill.cost, fill.maxPrice⟩) := by
            simp only [budgetSearch, if_pos hlh, ← hmid_def, hcb, if_pos hcost]
          rw [hred]
          apply ih (mid + 1) hi (some ⟨mid, fill.cost, fill.maxPrice⟩)
            (by omega) (by omega) ?_ (by intro h; exact Option.noConfusion h) ?_
          · intro n hn hfeas
            rcases hI2 n hn hfeas with hle | ⟨b, hb, hsh⟩
            · left; exact hle
            · right
              obtain ⟨-, -, -, hlob⟩ := hI4 b hb
              refine ⟨⟨mid, fill.cost, fill.maxPrice⟩, rfl, ?_⟩
              show n ≤ mid
              omega
          · intro b hb
            obtain rfl := Option.some.inj hb
            refine ⟨?_, ?_, hcost, rfl⟩
            · show m0 ≤ mid
              omega
            · rw [hcb]
        · have hred : budgetSearch asks feeBps maxUsdc (fuel + 1) lo hi best =
              budgetSearch asks feeBps maxUsdc fuel lo (mid - 1) best := by
            simp only [budgetSearch, if_pos hlh, ← hmid_def, hcb, if_neg hcost]
          rw [hred]
          apply ih lo (mid - 1) best (by omega) hlo ?_ hI3 hI4
          intro n hn hfeas
          rcases hI2 n hn hfeas with hle | hb
          · left
            by_contra hgt
            push_neg at hgt
            have : feasibleCount asks feeBps maxUsdc mid :=
              hdc mid n (by omega) (by omega) hfeas
            obtain ⟨fill', hfill', hcost'⟩ := this
            rw [hcb] at hfill'
            obtain rfl := Option.some.inj hfill'
            exact hcost hcost'
          · right; exact hb
    · have hterm : hi < lo := by omega
      simp only [budgetSearch, if_neg hlh]
      constructor
      · intro hres n hn hfeas
        subst hres
        rcases hI2 n hn hfeas with hle | ⟨b, hb, -⟩
        · have := hI3 rfl
          omega
        · exact Option.noConfusion hb
      · intro b hres
        subst hres
        obtain ⟨h1, h2, h3, h4⟩ := hI4 b rfl
        refine ⟨h1, h2, h3, ?_⟩
        intro m hm hfeas
        rcases hI2 m hm hfeas with hle | ⟨b', hb', hsh⟩
        · omega
        · obtain rfl := Option.some.inj hb'
          exact hsh

/-- Any feasible count on a sorted positive integer ladder is bounded by the
total size and by the budget divided by the fee-adjusted best price. -/
theorem feasible_bounds (a0 : Level) (rest : List Level) (feeBps maxUsdc : ℚ) (t : ℕ)
    (hsort : (a0 :: rest).Pairwise fun a b => a.price ≤ b.price)
    (hint : ∀ l ∈ a0 :: rest, ∃ k : ℕ, 0 < k ∧ l.size = (k : ℚ))
    (ht : sumSizes (a0 :: rest) = (t : ℚ))
    (hfee : 0 ≤ feeBps)
    (n : ℤ) (hfeas : feasibleCount (a0 :: rest) feeBps maxUsdc n) :
    1 ≤ n ∧ n ≤ (t : ℤ) ∧
      (n : ℚ) * (a0.price * (1 + feeBps / 10000)) ≤ maxUsdc := by
  obtain ⟨fill, hfill, hcost⟩ := hfeas
  obtain ⟨-, hnpos, hrem, hc⟩ := costToBuy_some_elim hfill
  have hn1 : 1 ≤ n := by
    by_contra hlt
    push_neg at hlt
    have : (n : ℚ) ≤ 0 := by exact_mod_cast (by omega : n ≤ 0)
    linarith
  have hsz : ∀ l ∈ a0 :: rest, 0 < l.size := by
    intro l hl
    obtain ⟨k, hk, hks⟩ := hint l hl
    rw [hks]
    exact_mod_cast hk
  have hnt : n ≤ (t : ℤ) :=
    ((int_ladder_fill (a0 :: rest) t hsz ht n hn1).1).1 hrem
  refine ⟨hn1, hnt, ?_⟩
  have hrem0 : buyRemaining (a0 :: rest) (n : ℚ) = 0 :=
    (int_ladder_fill (a0 :: rest) t hsz ht n hn1).2 hnt
  have hlow := buyNotional_lower_bound (a0 :: rest) a0.price
    (pairwise_head_le a0 rest hsort) (n : ℚ)
    (by exact_mod_cast (by omega : (0:ℤ) ≤ n))
  rw [hrem0, sub_zero] at hlow
  have hk : (0 : ℚ) ≤ 1 + feeBps / 10000 := by linarith
  have := mul_le_mul_of_nonneg_right hlow hk
  calc (n : ℚ) * (a0.price * (1 + feeBps / 10000))
      = (n : ℚ) * a0.price * (1 + feeBps / 10000) := by ring
    _ ≤ buyNotional (a0 :: rest) (n : ℚ) * (1 + feeBps / 10000) := this
    _ = fill.cost := hc.symm
    _ ≤ maxUsdc := hcost

/-- C1 (corrected).  On a best-first (ascending-price) ask ladder with
positive prices, positive whole-number sizes and total depth at most `1e9`,
with a nonnegative fee rate, a positive budget and a whole-number
`minShares ≥ 1`: if `maxSharesForBudget` returns a fill of `N` shares then
`costToBuySharesFromAsks` succeeds at `N` with exactly the reported cost,
that cost fits the budget, `N ≥ minShares`, and `N` is the largest feasible
count (so `N + 1` either cannot be filled or exceeds the budget); conversely,
if any count `≥ minShares` is fillable within the budget the function does
not return `null`. -/
theorem maxSharesForBudget_correct (asks : List Level) (feeBps maxUsdc : ℚ)
    (minShares : ℤ)
    (hne : asks ≠ [])
    (hsort : asks.Pairwise fun a b => a.price ≤ b.price)
    (hpos : ∀ l ∈ asks, 0 < l.price)
    (hint : ∀ l ∈ asks, ∃ k : ℕ, 0 < k ∧ l.size = (k : ℚ))
    (hdepth : sumSizes asks ≤ 1000000000)
    (hfee : 0 ≤ feeBps) (hbud : 0 < maxUsdc) (hmin : 1 ≤ minShares) :
    (∀ b, maxSharesForBudget asks feeBps maxUsdc minShares = some b →
      minShares ≤ b.shares ∧
      costToBuySharesFromAsks asks (b.shares : ℚ) feeBps = some ⟨b.cost, b.maxPrice⟩ ∧
      b.cost ≤ maxUsdc ∧
      ∀ n : ℤ, minShares ≤ n →
        (∃ fill, costToBuySharesFromAsks asks (n : ℚ) feeBps = some fill ∧
          fill.cost ≤ maxUsdc) → n ≤ b.shares) ∧
    (maxSharesForBudget asks feeBps maxUsdc minShares = none →
      ∀ n : ℤ, minShares ≤ n →
        ¬ ∃ fill, costToBuySharesFromAsks asks (n : ℚ) feeBps = some fill ∧
          fill.cost ≤ maxUsdc) := by
  cases asks with
  | nil => exact absurd rfl hne
  | cons a0 rest =>
    obtain ⟨t, ht⟩ := sumSizes_nat _ hint
    have hp0 : 0 < a0.price := hpos a0 (List.mem_cons_self a0 rest)
    have hkpos : (0 : ℚ) < 1 + feeBps / 10000 := by linarith
    have happrox : 0 < a0.price * (1 + feeBps / 10000) := mul_pos hp0 hkpos
    have hfloor : ⌊sumSizes (a0 :: rest)⌋ = (t : ℤ) := by
      rw [ht]
      exact_mod_cast Int.floor_intCast (t : ℤ)
    have ht9 : (t : ℤ) ≤ 1000000000 := by
      have : (t : ℚ) ≤ 1000000000 := ht ▸ hdepth
      exact_mod_cast this
    have hbb : ∀ n : ℤ, feasibleCount (a0 :: rest) feeBps maxUsdc n →
        n ≤ ⌊maxUsdc / (a0.price * (1 + feeBps / 10000))⌋ := by
      intro n hfeas
      obtain ⟨-, -, hmul⟩ := feasible_bounds a0 rest feeBps maxUsdc t hsort hint ht hfee n hfeas
      rw [Int.le_floor]
      rw [le_div_iff₀ happrox]
      exact hmul
    have hhi_eq : clampInt ((min (⌊sumSizes (a0 :: rest)⌋) (⌊maxUsdc / (a0.price * (1 + feeBps / 10000))⌋) : ℤ) : ℚ) 0 1000000000 =
        max 0 (min 1000000000 (min (t : ℤ) ⌊maxUsdc / (a0.price * (1 + feeBps / 10000))⌋)) := by
      rw [clampInt, hfloor, Int.floor_intCast]
    have hnbound : ∀ n : ℤ, feasibleCount (a0 :: rest) feeBps maxUsdc n →
        n ≤ max 0 (min 1000000000 (min (t : ℤ) ⌊maxUsdc / (a0.price * (1 + feeBps / 10000))⌋)) := by
      intro n hfeas
      obtain ⟨-, hnt, -⟩ := feasible_bounds a0 rest feeBps maxUsdc t hsort hint ht hfee n hfeas
      have := hbb n hfeas
      omega
    have hguard : ¬ (a0.price ≤ 0 ∨ maxUsdc ≤ 0) :=
      not_or.2 ⟨not_le.2 hp0, not_le.2 hbud⟩
    by_cases h1 : ⌊sumSizes (a0 :: rest)⌋ < minShares
    · have hres : maxSharesForBudget (a0 :: rest) feeBps maxUsdc minShares = none := by
        simp only [maxSharesForBudget, if_neg hguard, if_pos h1]
      rw [hres]
      constructor
      · intro b hb
        exact Option.noConfusion hb
      · intro _ n hn hfeas
        obtain ⟨-, hnt, -⟩ := feasible_bounds a0 rest feeBps maxUsdc t hsort hint ht hfee n hfeas
        omega
    · by_cases h2 : clampInt ((min (⌊sumSizes (a0 :: rest)⌋) (⌊maxUsdc / (a0.price * (1 + feeBps / 10000))⌋) : ℤ) : ℚ) 0 1000000000 < minShares
      · have hres : maxSharesForBudget (a0 :: rest) feeBps maxUsdc minShares = none := by
          simp only [maxSharesForBudget, if_neg hguard, if_neg h1, if_pos happrox, if_pos h2]
        rw [hres]
        constructor
        · intro b hb
          exact Option.noConfusion hb
        · intro _ n hn hfeas
          rw [hhi_eq] at h2
          have := hnbound n hfeas
          omega
      · have hres : maxSharesForBudget (a0 :: rest) feeBps maxUsdc minShares =
            budgetSearch (a0 :: rest) feeBps maxUsdc
              ((clampInt ((min (⌊sumSizes (a0 :: rest)⌋) (⌊maxUsdc / (a0.price * (1 + feeBps / 10000))⌋) : ℤ) : ℚ) 0 1000000000) + 1 - minShares).toNat
              minShares
              (clampInt ((min (⌊sumSizes (a0 :: rest)⌋) (⌊maxUsdc / (a0.price * (1 + feeBps / 10000))⌋) : ℤ) : ℚ) 0 1000000000)
              none := by
          simp only [maxSharesForBudget, if_neg hguard, if_neg h1, if_pos happrox, if_neg h2]
        have hspec := budgetSearch_spec (a0 :: rest) feeBps maxUsdc minShares hmin
          (fun n m hn hnm hf =>
            feasible_downward (a0 :: rest) feeBps maxUsdc hne hpos hint hfee n m hn hnm hf)
          ((clampInt ((min (⌊sumSizes (a0 :: rest)⌋) (⌊maxUsdc / (a0.price * (1 + feeBps / 10000))⌋) : ℤ) : ℚ) 0 1000000000) + 1 - minShares).toNat
          minShares
          (clampInt ((min (⌊sumSizes (a0 :: rest)⌋) (⌊maxUsdc / (a0.price * (1 + feeBps / 10000))⌋) : ℤ) : ℚ) 0 1000000000)
          none
          (le_refl _) (le_refl _)
          (by
            intro n hn hfeas
            left
            rw [hhi_eq]
            exact hnbound n hfeas)
          (fun _ => rfl)
          (fun b hb => Option.noConfusion hb)
        rw [hres]
        constructor
        · intro b hb
          obtain ⟨hsh, hfill, hcost, hmax⟩ := hspec.2 b hb
          exact ⟨hsh, hfill, hcost, fun n hn hf => hmax n hn hf⟩
        · intro hnone n hn hf
          exact hspec.1 hnone n hn hf

/-- C1 witness: `maxSharesForBudget` on the ladder `[{price 1/2, size 3}]`
with fee 0, budget 10, `minShares = 1`, via `maxSharesForBudget_correct`. -/
theorem maxSharesForBudget_correct_witness :
    maxSharesForBudget [⟨1/2, 3⟩] 0 10 1 = some ⟨3, 3/2, 1/2⟩ ∧
    ((1 : ℤ) ≤ (BudgetFill.mk 3 (3/2) (1/2)).shares ∧
      costToBuySharesFromAsks [⟨1/2, 3⟩] (((BudgetFill.mk 3 (3/2) (1/2)).shares : ℤ) : ℚ) 0 =
        some ⟨(BudgetFill.mk 3 (3/2) (1/2)).cost, (BudgetFill.mk 3 (3/2) (1/2)).maxPrice⟩ ∧
      (BudgetFill.mk 3 (3/2) (1/2)).cost ≤ 10 ∧
      ∀ n : ℤ, 1 ≤ n →
        (∃ fill, costToBuySharesFromAsks [⟨1/2, 3⟩] (n : ℚ) 0 = some fill ∧
          fill.cost ≤ 10) → n ≤ (BudgetFill.mk 3 (3/2) (1/2)).shares) := by
  have he : maxSharesForBudget [⟨1/2, 3⟩] 0 10 1 = some ⟨3, 3/2, 1/2⟩ := by
    with_unfolding_all rfl
  refine ⟨he, ?_⟩
  have hc := maxSharesForBudget_correct [⟨1/2, 3⟩] 0 10 1
    (by simp)
    (List.pairwise_singleton _ _)
    (by with_unfolding_all decide)
    (by
      intro l hl
      rw [List.mem_singleton] at hl
      subst hl
      exact ⟨3, by norm_num, by norm_num⟩)
    (by norm_num [sumSizes])
    (le_refl 0) (by norm_num) (le_refl 1)
  exact hc.1 _ he

/-- C1 counterexample: on the (data-model-valid, sorted) ladder
`[{price 1/2, size 1 - 1e-10}]` one share is fillable within the budget
(`costToBuy` succeeds with cost ≤ 10) yet `maxSharesForBudget` returns `null`
(its `Math.floor`ed total size 0 is below `minShares = 1`), refuting the
claim's converse clause. -/
theorem maxSharesForBudget_counterexample :
    costToBuySharesFromAsks [⟨1/2, 1 - 1/10000000000⟩] 1 0 =
      some ⟨9999999999/20000000000, 1/2⟩ ∧
    (9999999999/20000000000 : ℚ) ≤ 10 ∧ ((1 : ℤ) ≤ 1) ∧
    maxSharesForBudget [⟨1/2, 1 - 1/10000000000⟩] 0 10 1 = none := by
  refine ⟨?_, by norm_num, le_refl 1, ?_⟩
  · with_unfolding_all rfl
  · with_unfolding_all rfl

/-! ## StrategyArbitrage: `computeEqualProfitStraddle` and straddle execution
(src/unnamed/part_000) -/

/-- Successful result of `computeEqualProfitStraddle`. -/
structure StraddleFill where
  shares : ℤ
  cost : ℚ
  profitCentsEach : ℚ
  upCost : ℚ
  downCost : ℚ
  upMaxPrice : ℚ
  downMaxPrice : ℚ
deriving Repr, DecidableEq

/-- The `while (lo <= hi)` loop of `computeEqualProfitStraddle`
(src/unnamed/part_000 lines 39-67), fueled like `budgetSearch`.
The admission test is `totalCost ≤ maxUsdc && profitCentsEach ≥
minProfitCents`, where `profitCentsEach = (mid - totalCost) * 100` (note:
the source computes the *total* profit in cents under this name). -/
def straddleSearch (upAsks downAsks : List Level)
    (upFee downFee maxUsdc minProfitCents : ℚ) :
    ℕ → ℤ → ℤ → Option StraddleFill → Option StraddleFill
  | 0, _, _, best => best
  | fuel + 1, lo, hi, best =>
    if lo ≤ hi then
      let mid := Int.fdiv (lo + hi) 2
      match costToBuySharesFromAsks upAsks (mid : ℚ) upFee,
            costToBuySharesFromAsks downAsks (mid : ℚ) downFee with
      | some upFill, some downFill =>
        let totalCost := upFill.cost + downFill.cost
        let profitCentsEach := ((mid : ℚ) - totalCost) * 100
        if totalCost ≤ maxUsdc ∧ minProfitCents ≤ profitCentsEach then
          straddleSearch upAsks downAsks upFee downFee maxUsdc minProfitCents fuel
            (mid + 1) hi
            (some ⟨mid, totalCost, profitCentsEach, upFill.cost, downFill.cost,
              upFill.maxPrice, downFill.maxPrice⟩)
        else straddleSearch upAsks downAsks upFee downFee maxUsdc minProfitCents fuel
          lo (mid - 1) best
      | _, _ => straddleSearch upAsks downAsks upFee downFee maxUsdc minProfitCents fuel
          lo (mid - 1) best
    else best

/-- `computeEqualProfitStraddle(ctx, {...})` from src/unnamed/part_000 lines
12-69: binary search for the largest per-side share count whose summed
two-leg cost fits the budget and clears the minimum-profit floor. -/
def computeEqualProfitStraddle (upAsks downAsks : List Level)
    (upFeeBps downFeeBps maxUsdc : ℚ) (minShares : ℤ) (minProfitCents : ℚ) :
    Option StraddleFill :=
  let maxFillableShares : ℤ := ⌊min (sumSizes upAsks) (sumSizes downAsks)⌋
  if maxFillableShares < minShares then none
  else
    match upAsks, downAsks with
    | u0 :: _, d0 :: _ =>
      if 0 < u0.price ∧ 0 < d0.price then
        let approxPerShare :=
          u0.price * (1 + upFeeBps / 10000) + d0.price * (1 + downFeeBps / 10000)
        let budgetBound : ℤ :=
          if 0 < maxUsdc ∧ 0 < approxPerShare then ⌊maxUsdc / approxPerShare⌋ else 0
        let hi := clampInt ((min maxFillableShares budgetBound : ℤ) : ℚ) 0 1000000000
        if hi < minShares then none
        else straddleSearch upAsks downAsks upFeeBps downFeeBps maxUsdc minProfitCents
          (hi + 1 - minShares).toNat minShares hi none
      else none
    | _, _ => none

/-- C5 (confirmed).  With up best ask 0.40 and down best ask 0.55, ample
depth (100 per side), both fee rates 0 and the default settings (budget 10,
`minShares` 1, minimum profit 0.25 cents), `computeEqualProfitStraddle`
proposes `shares > 0` — in fact 10 per side at cost 9.5 — with a profit per
share of at least `0.05 - ε` (here exactly 0.05, with `ε = 0.001`). -/
theorem straddle_arbitrage_scenario :
    ∃ s : StraddleFill,
      computeEqualProfitStraddle [⟨2/5, 100⟩] [⟨11/20, 100⟩] 0 0 10 1 (1/4) = some s ∧
      0 < s.shares ∧
      (1/20 : ℚ) - 1/1000 ≤ ((s.shares : ℚ) - s.cost) / (s.shares : ℚ) := by
  refine ⟨⟨10, 19/2, 50, 4, 11/2, 2/5, 11/20⟩, ?_, by norm_num, by norm_num⟩
  with_unfolding_all rfl

/-- The open straddle position stored in `ctx.state.arb.open` by
`executePaperStraddle` (src/unnamed/part_000): one record covering both legs
with a single per-side share count and the combined cost.  (Timestamps and
market metadata are omitted: they do not affect balance or leg accounting.) -/
structure ArbOpen where
  sharesPerSide : ℚ
  totalCostUsdc : ℚ
deriving Repr, DecidableEq

/-- The arbitrage-mode paper-trading state touched by `executePaperStraddle`:
the engine's paper balance and `ctx.state.arb.open`. -/
structure PaperArbState where
  balance : ℚ
  arbOpen : Option ArbOpen
deriving Repr, DecidableEq

/-- `executePaperStraddle(ctx, sharesPerSide, totalCostUsdc)` from
src/unnamed/part_000 lines 101-122: guard `cost > 0`, guard
`cost ≤ paperBalance`, guard no straddle already open; then deduct the
combined cost once via `executePaperDelta(-cost)` and record the two-leg
position. -/
def executePaperStraddle (s : PaperArbState) (sharesPerSide totalCostUsdc : ℚ) :
    PaperArbState :=
  if totalCostUsdc ≤ 0 then s
  else if s.balance < totalCostUsdc then s
  else match s.arbOpen with
    | some _ => s
    | none =>
      { balance := s.balance - totalCostUsdc,
        arbOpen := some ⟨sharesPerSide, totalCostUsdc⟩ }

/-- Outcome of `executeLiveStraddle` (src/unnamed/part_000 lines 71-99).
`ordersSubmitted` models reaching the two `createAndPostOrder` calls (after
the `liveCanSpendUsdc` guard); the two legs are posted as *separate*
fill-or-kill orders whose fills `upFok`/`downFok` are decided by the
exchange, an input of this model. -/
structure LiveStraddleOutcome where
  ordersSubmitted : Bool
  upLegFilled : Bool
  downLegFilled : Bool
deriving Repr, DecidableEq

/-- `executeLiveStraddle(ctx, straddle)`: if the spend guard fails no order
is posted; otherwise the up FOK order and then the down FOK order are posted
unconditionally — the down order is not conditioned on the up fill and
nothing unwinds a one-sided fill. -/
def executeLiveStraddle (canSpendOk upFok downFok : Bool) : LiveStraddleOutcome :=
  if canSpendOk then ⟨true, upFok, downFok⟩ else ⟨false, false, false⟩

/-- C4 (corrected: atomicity holds for the *paper* path; the live path posts
two independent fill-or-kill orders and does not guarantee it).  A paper
straddle entry either opens the two-leg position — one record carrying the
common per-side share count — with the combined cost deducted exactly once,
or leaves the whole state (balance and position) unchanged; and a blocked
live straddle posts neither leg. -/
theorem paperStraddle_atomic (s : PaperArbState) (sharesPerSide totalCostUsdc : ℚ)
    (upFok downFok : Bool) :
    (executePaperStraddle s sharesPerSide totalCostUsdc = s ∨
      (0 < totalCostUsdc ∧ totalCostUsdc ≤ s.balance ∧ s.arbOpen = none ∧
        executePaperStraddle s sharesPerSide totalCostUsdc =
          ⟨s.balance - totalCostUsdc, some ⟨sharesPerSide, totalCostUsdc⟩⟩)) ∧
    executeLiveStraddle false upFok downFok = ⟨false, false, false⟩ := by
  constructor
  · by_cases h1 : totalCostUsdc ≤ 0
    · left; simp only [executePaperStraddle, if_pos h1]
    · by_cases h2 : s.balance < totalCostUsdc
      · left; simp only [executePaperStraddle, if_neg h1, if_pos h2]
      · cases ho : s.arbOpen with
        | some o =>
          left
          simp only [executePaperStraddle, if_neg h1, if_neg h2, ho]
        | none =>
          right
          refine ⟨not_le.1 h1, not_lt.1 h2, rfl, ?_⟩
          simp only [executePaperStraddle, if_neg h1, if_neg h2, ho]
  · rfl

/-- C4 counterexample: in live execution (spend guard passed), the exchange
filling the up FOK order but killing the down one yields a single-leg entry —
`executeLiveStraddle` neither conditions the second order on the first fill
nor unwinds, so the claimed "no single-leg entry ... in live execution" fails. -/
theorem liveStraddle_single_leg_counterexample :
    executeLiveStraddle true true false =
      ⟨true, true, false⟩ ∧
    (executeLiveStraddle true true false).upLegFilled ≠
      (executeLiveStraddle true true false).downLegFilled := by
  exact ⟨rfl, by decide⟩

/-! ## StrategyCertainty (src/unnamed/part_001): fee model, "Real" book math,
candles, entry gating, paper buy/sell -/

/-- Default configuration constants of `createCertaintyMode`
(src/unnamed/part_001 lines 20-60), at their documented env defaults. -/
def ENTRY_TIME_WINDOW_SEC : ℚ := 600
def ENTRY_PRICE_MIN : ℚ := 4/5
def ENTRY_PRICE_MAX : ℚ := 41/50
def REENTRY_PRICE_MIN : ℚ := 3/4
def REENTRY_PRICE_MAX : ℚ := 77/100
def STOP_LOSS_BUFFER : ℚ := 3/200
def MAX_SPREAD : ℚ := 1/50
def MIN_SHARES : ℤ := 1
def ORDER_GAS_USDC : ℚ := 0
def PRICE_EPS : ℚ := 1/1000
def POLYMARKET_FEE_RATE : ℚ := 1/50

/-- The `Number.isFinite(maxPrice01) && p > maxPrice01 + PRICE_EPS` break
test of the capped sweeps (`null` cap never breaks). -/
def priceAboveCap (maxPrice01 : Option ℚ) (p : ℚ) : Bool :=
  match maxPrice01 with
  | some m => decide (m + PRICE_EPS < p)
  | none => false

/-- The `Number.isFinite(minPrice01) && p < minPrice01 - PRICE_EPS` break
test of the floored bid sweep. -/
def priceBelowFloor (minPrice01 : Option ℚ) (p : ℚ) : Bool :=
  match minPrice01 with
  | some m => decide (p < m - PRICE_EPS)
  | none => false

/-- `calcPolymarketFee(notionalUsdc, price01)`: fee charged on the
complementary (unfavored) side. -/
def calcPolymarketFee (notionalUsdc price01 : ℚ) : ℚ :=
  notionalUsdc * (1 - price01) * POLYMARKET_FEE_RATE

/-- Loop state of `costToBuySharesFromAsksReal`. -/
structure RealSweepState where
  remaining : ℚ
  notional : ℚ
  maxFilled : ℚ
  weightedPriceSum : ℚ
  filledShares : ℚ
deriving Repr, DecidableEq

/-- The loop of `costToBuySharesFromAsksReal` (src/unnamed/part_001 lines
86-99): skip levels with non-positive price or size, break above
`maxPrice01 + PRICE_EPS` when a cap is given. -/
def sweepAsksReal (maxPrice01 : Option ℚ) : List Level → RealSweepState → RealSweepState
  | [], st => st
  | l :: rest, st =>
    if 0 < st.remaining then
      if ¬ (0 < l.price ∧ 0 < l.size) then sweepAsksReal maxPrice01 rest st
      else if priceAboveCap maxPrice01 l.price then st
      else
        let take := min st.remaining l.size
        sweepAsksReal maxPrice01 rest
          ⟨st.remaining - take, st.notional + take * l.price, l.price,
            st.weightedPriceSum + take * l.price, st.filledShares + take⟩
    else st

/-- Successful result of `costToBuySharesFromAsksReal`. -/
structure RealFill where
  shares : ℚ
  notional : ℚ
  fee : ℚ
  cost : ℚ
  maxPrice : ℚ
  avgPrice : ℚ
deriving Repr, DecidableEq

/-- `costToBuySharesFromAsksReal(asks, shares, maxPrice01)` from
src/unnamed/part_001 lines 80-106: sweep with optional price cap, then apply
the Polymarket fee at the volume-weighted average fill price. -/
def costToBuySharesFromAsksReal (asks : List Level) (shares : ℚ)
    (maxPrice01 : Option ℚ) : Option RealFill :=
  if asks = [] then none
  else if shares ≤ 0 then none
  else
    let st := sweepAsksReal maxPrice01 asks ⟨shares, 0, 0, 0, 0⟩
    if eps9 < st.remaining then none
    else
      let avgPrice := if 0 < st.filledShares
        then st.weightedPriceSum / st.filledShares else st.maxFilled
      let fee := calcPolymarketFee st.notional avgPrice
      some ⟨shares, st.notional, fee, st.notional + fee, st.maxFilled, avgPrice⟩

/-- The `while (lo <= hi)` loop of `maxSharesForBudgetReal`
(src/unnamed/part_001 lines 126-141); the budget test carries a `1e-9`
slack.  Fueled like `budgetSearch`. -/
def budgetSearchReal (asks : List Level) (budgetUsdc : ℚ) (maxPrice01 : Option ℚ) :
    ℕ → ℤ → ℤ → Option RealFill → Option RealFill
  | 0, _, _, best => best
  | fuel + 1, lo, hi, best =>
    if lo ≤ hi then
      let mid := Int.fdiv (lo + hi) 2
      match costToBuySharesFromAsksReal asks (mid : ℚ) maxPrice01 with
      | none => budgetSearchReal asks budgetUsdc maxPrice01 fuel lo (mid - 1) best
      | some fill =>
        if fill.cost ≤ budgetUsdc + eps9 then
          budgetSearchReal asks budgetUsdc maxPrice01 fuel (mid + 1) hi (some fill)
        else budgetSearchReal asks budgetUsdc maxPrice01 fuel lo (mid - 1) best
    else best

/-- `maxSharesForBudgetReal(asks, budgetUsdc, maxPrice01, minShares)` from
src/unnamed/part_001 lines 107-142. -/
def maxSharesForBudgetReal (asks : List Level) (budgetUsdc : ℚ)
    (maxPrice01 : Option ℚ) (minShares : ℤ) : Option RealFill :=
  match asks with
  | [] => none
  | a0 :: _ =>
    if budgetUsdc ≤ 0 then none
    else
      let totalSize : ℤ := ⌊sumSizes asks⌋
      if totalSize < minShares then none
      else if a0.price ≤ 0 then none
      else if priceAboveCap maxPrice01 a0.price then none
      else
        let approxFeeRate := (1 - a0.price) * POLYMARKET_FEE_RATE
        let approxPerShare := a0.price * (1 + approxFeeRate)
        let budgetBound : ℤ :=
          if 0 < approxPerShare then ⌊budgetUsdc / approxPerShare⌋ else 0
        let hi := max 0 (min totalSize budgetBound)
        if hi < minShares then none
        else budgetSearchReal asks budgetUsdc maxPrice01
          (hi + 1 - minShares).toNat minShares hi none

/-- Loop state of `proceedsFromSellingSharesToBidsReal`. -/
structure RealSellSweepState where
  remaining : ℚ
  gross : ℚ
  weightedPriceSum : ℚ
  filledShares : ℚ
  minFilled : Option ℚ
deriving Repr, DecidableEq

/-- The loop of `proceedsFromSellingSharesToBidsReal` (src/unnamed/part_001
lines 151-163): skip levels with non-positive size, break below
`minPrice01 - PRICE_EPS` when a floor is given. -/
def sweepBidsReal (minPrice01 : Option ℚ) : List Level → RealSellSweepState → RealSellSweepState
  | [], st => st
  | l :: rest, st =>
    if 0 < st.remaining then
      if ¬ (0 < l.size) then sweepBidsReal minPrice01 rest st
      else if priceBelowFloor minPrice01 l.price then st
      else
        let take := min st.remaining l.size
        sweepBidsReal minPrice01 rest
          ⟨st.remaining - take, st.gross + take * l.price,
            st.weightedPriceSum + take * l.price, st.filledShares + take,
            some l.price⟩
    else st

/-- Successful result of `proceedsFromSellingSharesToBidsReal`; `avgPrice` is
`null` exactly when nothing was filled (then the fee falls back to 0 via the
`Number.isFinite` guard in `calcPolymarketFee`). -/
structure RealSellFill where
  shares : ℚ
  gross : ℚ
  fee : ℚ
  proceeds : ℚ
  minFilledPrice : Option ℚ
  avgPrice : Option ℚ
deriving Repr, DecidableEq

/-- `proceedsFromSellingSharesToBidsReal(bids, shares, minPrice01)` from
src/unnamed/part_001 lines 144-170. -/
def proceedsFromSellingSharesToBidsReal (bids : List Level) (shares : ℚ)
    (minPrice01 : Option ℚ) : Option RealSellFill :=
  if bids = [] then none
  else if shares ≤ 0 then none
  else
    let st := sweepBidsReal minPrice01 bids ⟨shares, 0, 0, 0, none⟩
    if eps9 < st.remaining then none
    else
      let avgPrice : Option ℚ := if 0 < st.filledShares
        then some (st.weightedPriceSum / st.filledShares) else st.minFilled
      let fee := match avgPrice with
        | some a => calcPolymarketFee st.gross a
        | none => 0
      some ⟨shares, st.gross, fee, st.gross - fee, st.minFilled, avgPrice⟩

/-- One 1-minute OHLC candle (`data.current` in `updateOHLC`,
src/unnamed/part_001; the JS field `open` is `openPrice` here). -/
structure Candle where
  minute : ℤ
  openPrice : ℚ
  high : ℚ
  low : ℚ
  close : ℚ
  startTime : ℤ
deriving Repr, DecidableEq

/-- Per-side candle store: the live candle plus the bounded archive. -/
structure CandleSeries where
  current : Option Candle
  history : List Candle
deriving Repr, DecidableEq

/-- `isBullishMomentum(ctx, side)` from src/unnamed/part_001 lines 314-337:
the current 1-minute candle is green (`close ≥ open - PRICE_EPS`), or the
slightly-red candle still closes at or above the previous minute's close
(within the same tolerance). -/
def isBullishMomentum (cs : CandleSeries) : Bool :=
  match cs.current with
  | none => false
  | some c =>
    if c.openPrice - PRICE_EPS ≤ c.close then true
    else match cs.history.getLast? with
      | some prev => decide (prev.close - PRICE_EPS ≤ c.close)
      | none => false

/-- `isWarmedUp(ctx, side)`: at least 5 seconds of data in the current
candle (`nowMs` in milliseconds). -/
def isWarmedUp (nowMs : ℤ) (cs : CandleSeries) : Bool :=
  match cs.current with
  | none => false
  | some c => decide (5000 < nowMs - c.startTime)

/-- Exit kinds recorded in `intervalState.lastExitType`. -/
inductive ExitType where
  | stopLoss
  | takeProfit
deriving Repr, DecidableEq

/-- `ctx.state.certainty.intervalState` (src/unnamed/part_001): per-interval
entry bookkeeping. -/
structure IntervalState where
  marketId : Option String
  lastExitType : Option ExitType
  entryCount : ℤ
  startBtcPrice : Option ℚ
  lastStopLossExitPrice : Option ℚ
  requireReentryUntilResolved : Bool
deriving Repr, DecidableEq

/-- A required entry band (the `label` display string is omitted). -/
structure EntryRange where
  min : ℚ
  max : ℚ
deriving Repr, DecidableEq

/-- `getCurrentEntryRange(ctx)` from src/unnamed/part_001 lines 349-399,
with its interval-state mutation made explicit: on a new (or missing) market
id the state is reset and the default band applies; in the same interval a
recorded stop-loss exit price `p` yields the band
`[max(0.01, p - STOP_LOSS_BUFFER), p + STOP_LOSS_BUFFER]` (falling back to
the static re-entry band when no exit price was recorded); otherwise the
default band applies.  `btcRef` is the already-resolved
`interval?.entrySpot || market?.referencePrice`. -/
def getCurrentEntryRange (iState : IntervalState) (currentMarketId : Option String)
    (btcRef : Option ℚ) : EntryRange × IntervalState :=
  if currentMarketId = none ∨ currentMarketId ≠ iState.marketId then
    let i1 : IntervalState :=
      { iState with
        marketId := currentMarketId
        lastExitType := none
        entryCount := 0
        lastStopLossExitPrice := none }
    let i2 : IntervalState := match btcRef with
      | some b => { i1 with startBtcPrice := some b }
      | none => i1
    (⟨ENTRY_PRICE_MIN, ENTRY_PRICE_MAX⟩, i2)
  else if iState.lastExitType = some ExitType.stopLoss then
    match iState.lastStopLossExitPrice with
    | some p =>
      (⟨max (1/100) (p - STOP_LOSS_BUFFER), p + STOP_LOSS_BUFFER⟩, iState)
    | none => (⟨REENTRY_PRICE_MIN, REENTRY_PRICE_MAX⟩, iState)
  else (⟨ENTRY_PRICE_MIN, ENTRY_PRICE_MAX⟩, iState)

/-- The per-side top-of-book summary consumed by the certainty mode
(`ctx.state.orderbooks.up/down`). -/
structure BookSummary where
  bestAsk : Option ℚ
  bestBid : Option ℚ
  mark : Option ℚ
deriving Repr, DecidableEq

/-- `spreadOk(summary)` from src/unnamed/part_001: both sides quoted and
positive, spread within `MAX_SPREAD + 1e-12`. -/
def spreadOk (s : BookSummary) : Bool :=
  match s.bestAsk, s.bestBid with
  | some a, some b =>
    if 0 < a ∧ 0 < b then decide (a - b ≤ MAX_SPREAD + 1/1000000000000) else false
  | _, _ => false

/-- The inputs `canEnterPosition(ctx, side, tRem)` reads for one side on one
tick (paper trading: capital is the paper balance and the order-gas reserve
applies). -/
structure CertaintyCtx where
  summary : BookSummary
  asks : List Level
  iState : IntervalState
  currentMarketId : Option String
  btcRef : Option ℚ
  candles : CandleSeries
  nowMs : ℤ
  paperBalance : ℚ
  tRem : Option ℚ
deriving Repr, DecidableEq

/-- An admitted entry candidate (the `ok: true` payload). -/
structure EnterOk where
  entryRange : EntryRange
  fill : RealFill
  capitalBefore : ℚ
deriving Repr, DecidableEq

/-- The bypassable time-window gate of `canEnterPosition`: outside the
trailing entry window when `tRem` is missing or exceeds
`ENTRY_TIME_WINDOW_SEC`. -/
def outsideEntryWindow (tRem : Option ℚ) : Bool :=
  match tRem with
  | none => true
  | some t => decide (ENTRY_TIME_WINDOW_SEC < t)

/-- `canEnterPosition(ctx, side, tRem)` from src/unnamed/part_001 lines
402-467, returning the admitted candidate (or `none`) together with the
interval state as left by its `getCurrentEntryRange` call.  When
`requireReentryUntilResolved` is set, the warm-up, time-window and momentum
gates are bypassed. -/
def canEnterPosition (c : CertaintyCtx) : Option EnterOk × IntervalState :=
  let reentryRequired := c.iState.requireReentryUntilResolved
  if ¬ reentryRequired ∧ ¬ isWarmedUp c.nowMs c.candles then (none, c.iState)
  else if ¬ reentryRequired ∧ outsideEntryWindow c.tRem then (none, c.iState)
  else match c.summary.bestAsk with
    | none => (none, c.iState)
    | some bestAsk =>
      if bestAsk ≤ 0 then (none, c.iState)
      else if ¬ spreadOk c.summary then (none, c.iState)
      else
        let ri := getCurrentEntryRange c.iState c.currentMarketId c.btcRef
        if ri.1.max + PRICE_EPS < bestAsk then (none, ri.2)
        else if bestAsk < ri.1.min - PRICE_EPS then (none, ri.2)
        else if ¬ reentryRequired ∧ ¬ isBullishMomentum c.candles then (none, ri.2)
        else
          let capitalBefore := c.paperBalance
          if capitalBefore ≤ 0 then (none, ri.2)
          else
            let budget := capitalBefore - ORDER_GAS_USDC
            if budget ≤ 0 then (none, ri.2)
            else match maxSharesForBudgetReal c.asks budget (some ri.1.max) MIN_SHARES with
              | none => (none, ri.2)
              | some fill => (some ⟨ri.1, fill, capitalBefore⟩, ri.2)

/-- The two outcome sides tracked by the certainty mode. -/
inductive CSide where
  | up
  | down
deriving Repr, DecidableEq

/-- `ctx.state.certainty.open` as far as balance/interval accounting is
concerned (token id, limit price and timestamps are ledger/display data). -/
structure COpen where
  side : CSide
  shares : ℚ
  tradeId : ℤ
deriving Repr, DecidableEq

/-- The certainty-mode paper state touched by `executePaperBuy` and
`executePaperSell`: paper balance, the open position, and the interval
state. -/
structure CertaintyPaperState where
  balance : ℚ
  openPos : Option COpen
  iState : IntervalState
deriving Repr, DecidableEq

/-- `executePaperBuy(ctx, {...})` from src/unnamed/part_001 lines 504-557:
refuse if a position is open, the share count is non-positive or the fill is
missing; refuse when `fill.cost + gas` exceeds the paper balance; otherwise
deduct the total, open the position, bump the entry count and clear the
stop-loss re-entry requirement (successful re-entry may be on either side). -/
def executePaperBuy (s : CertaintyPaperState) (tradeId : ℤ) (side : CSide)
    (shares : ℚ) (fill : Option RealFill) : CertaintyPaperState :=
  match s.openPos with
  | some _ => s
  | none =>
    if shares ≤ 0 then s
    else match fill with
      | none => s
      | some f =>
        let total := f.cost + ORDER_GAS_USDC
        if s.balance < total then s
        else
          { balance := s.balance - total
            openPos := some ⟨side, shares, tradeId⟩
            iState :=
              { s.iState with
                entryCount := s.iState.entryCount + 1
                requireReentryUntilResolved := false
                lastExitType := none } }

/-- `executePaperSell(ctx, open, sellFill, exitType)` from
src/unnamed/part_001 lines 651-687: credit the proceeds, pay the order gas,
record the exit type and — on a stop-loss with a finite realized average
price — store that price and require a re-entry; close the position. -/
def executePaperSell (s : CertaintyPaperState) (sellFill : Option RealSellFill)
    (exitType : ExitType) : CertaintyPaperState :=
  match s.openPos with
  | none => s
  | some _ =>
    match sellFill with
    | none => s
    | some sf =>
      let i1 : IntervalState := { s.iState with lastExitType := some exitType }
      let i2 : IntervalState :=
        if exitType = ExitType.stopLoss then
          match sf.avgPrice with
          | some p =>
            { i1 with
              lastStopLossExitPrice := some p
              requireReentryUntilResolved := true }
          | none => i1
        else i1
      { balance := s.balance + sf.proceeds - ORDER_GAS_USDC
        openPos := none
        iState := i2 }

/-- C6 (corrected: the stated conjunction of entry conditions is enforced
only when no stop-loss re-entry is pending; with
`requireReentryUntilResolved` set, the warm-up, time-window and momentum
gates are bypassed and only the band — centered on the realized stop-exit
price — and spread gates apply).  Whenever `canEnterPosition` admits an
entry, the best ask is quoted, positive, and inside the currently required
band (up to the `PRICE_EPS` tolerance), the spread check passes, and, when
no re-entry is pending, the warm-up has elapsed, the time remaining is
within the trailing window, and the side's 1-minute candle momentum is
bullish. -/
theorem canEnter_requires_conditions (c : CertaintyCtx) (e : EnterOk)
    (i' : IntervalState) (h : canEnterPosition c = (some e, i')) :
    (∃ ask, c.summary.bestAsk = some ask ∧ 0 < ask ∧
      ask ≤ (getCurrentEntryRange c.iState c.currentMarketId c.btcRef).1.max + PRICE_EPS ∧
      (getCurrentEntryRange c.iState c.currentMarketId c.btcRef).1.min - PRICE_EPS ≤ ask) ∧
    spreadOk c.summary = true ∧
    e.entryRange = (getCurrentEntryRange c.iState c.currentMarketId c.btcRef).1 ∧
    (c.iState.requireReentryUntilResolved = false →
      isWarmedUp c.nowMs c.candles = true ∧
      (∃ t, c.tRem = some t ∧ t ≤ ENTRY_TIME_WINDOW_SEC) ∧
      isBullishMomentum c.candles = true) := by
  simp only [canEnterPosition] at h
  split_ifs at h with h1 h2 h3 h4 h5 h6
  all_goals try exact Option.noConfusion (congrArg Prod.fst h)
  all_goals
    cases hask : c.summary.bestAsk with
    | none =>
      rw [hask] at h
      exact Option.noConfusion (congrArg Prod.fst h)
    | some ask =>
      rw [hask] at h
      dsimp only at h
      split_ifs at h with hA hB hC
      all_goals first
      | exact Option.noConfusion (congrArg Prod.fst h)
      | cases hfill : maxSharesForBudgetReal c.asks (c.paperBalance - ORDER_GAS_USDC)
          (some (getCurrentEntryRange c.iState c.currentMarketId c.btcRef).1.max)
          MIN_SHARES with
      | none =>
        rw [hfill] at h
        exact Option.noConfusion (congrArg Prod.fst h)
      | some fill =>
        rw [hfill] at h
        have he : e = ⟨(getCurrentEntryRange c.iState c.currentMarketId c.btcRef).1,
            fill, c.paperBalance⟩ :=
          (Option.some.inj (congrArg Prod.fst h)).symm
        refine ⟨⟨ask, rfl, not_le.1 hA, not_lt.1 hB, not_lt.1 hC⟩, h3, by rw [he], ?_⟩
        intro hre
        have hre' : ¬ c.iState.requireReentryUntilResolved = true := by
          simp [hre]
        refine ⟨?_, ?_, ?_⟩
        · by_contra hw
          exact h1 ⟨hre', hw⟩
        · have hwin : ¬ outsideEntryWindow c.tRem = true := fun hw => h2 ⟨hre', hw⟩
          cases ht : c.tRem with
          | none =>
            rw [ht] at hwin
            exact absurd rfl hwin
          | some t =>
            rw [ht] at hwin
            simp only [outsideEntryWindow, decide_eq_true_eq] at hwin
            exact ⟨t, rfl, le_of_not_lt hwin⟩
        · by_contra hb
          exact h4 ⟨hre', hb⟩

/-- A normal-mode entry tick: same interval, default band, ask 0.81, bid
0.80, bullish candle (open 0.78, close 0.81), warmed up, 300s remaining. -/
def certaintyNormalCtx : CertaintyCtx :=
  { summary := ⟨some (81/100), some (4/5), some (81/100)⟩
    asks := [⟨81/100, 50⟩]
    iState := ⟨some "m", none, 0, none, none, false⟩
    currentMarketId := some "m"
    btcRef := none
    candles := ⟨some ⟨0, 39/50, 81/100, 39/50, 81/100, 0⟩, []⟩
    nowMs := 10000
    paperBalance := 100
    tRem := some 300 }

/-- A pending-re-entry tick: stop-loss exit recorded at 0.745 with
`requireReentryUntilResolved` set, ask 0.745 inside the re-entry band, but a
bearish candle (open 0.90, close 0.745), no warm-up (1s of data) and 10000s
remaining — far outside the entry window. -/
def certaintyReentryCtx : CertaintyCtx :=
  { summary := ⟨some (149/200), some (37/50), some (149/200)⟩
    asks := [⟨149/200, 50⟩]
    iState := ⟨some "m", some ExitType.stopLoss, 1, none, some (149/200), true⟩
    currentMarketId := some "m"
    btcRef := none
    candles := ⟨some ⟨0, 9/10, 9/10, 149/200, 149/200, 0⟩, []⟩
    nowMs := 1000
    paperBalance := 100
    tRem := some 10000 }

/-- C6 witness: `canEnter_requires_conditions` applied to the concrete
admitted entry of `certaintyNormalCtx`. -/
theorem canEnter_requires_conditions_witness :
    canEnterPosition certaintyNormalCtx =
      (some ⟨⟨4/5, 41/50⟩, ⟨50, 81/2, 1539/10000, 406539/10000, 81/100, 81/100⟩, 100⟩,
        certaintyNormalCtx.iState) ∧
    (spreadOk certaintyNormalCtx.summary = true ∧
      isWarmedUp certaintyNormalCtx.nowMs certaintyNormalCtx.candles = true ∧
      isBullishMomentum certaintyNormalCtx.candles = true) := by
  have he : canEnterPosition certaintyNormalCtx =
      (some ⟨⟨4/5, 41/50⟩, ⟨50, 81/2, 1539/10000, 406539/10000, 81/100, 81/100⟩, 100⟩,
        certaintyNormalCtx.iState) := by
    with_unfolding_all rfl
  have hc := canEnter_requires_conditions certaintyNormalCtx _ _ he
  refine ⟨he, hc.2.1, ?_, ?_⟩
  · exact (hc.2.2.2 (by with_unfolding_all rfl)).1
  · exact (hc.2.2.2 (by with_unfolding_all rfl)).2.2

/-- C6 counterexample: on `certaintyReentryCtx`, StrategyCertainty admits an
entry (the result carries a 50-share fill) although the tick is outside the
trailing time window, the candle momentum is bearish and the warm-up has not
elapsed — refuting the claim that an entry is admitted *only* when all five
conditions hold (the stop-loss re-entry mode bypasses three of them). -/
theorem canEnter_reentry_bypass_counterexample :
    (canEnterPosition certaintyReentryCtx).1.isSome = true ∧
    certaintyReentryCtx.tRem = some 10000 ∧
    ¬ ((10000 : ℚ) ≤ ENTRY_TIME_WINDOW_SEC) ∧
    isBullishMomentum certaintyReentryCtx.candles = false ∧
    isWarmedUp certaintyReentryCtx.nowMs certaintyReentryCtx.candles = false := by
  refine ⟨?_, rfl, by norm_num [ENTRY_TIME_WINDOW_SEC], ?_, ?_⟩
  · with_unfolding_all rfl
  · with_unfolding_all rfl
  · with_unfolding_all rfl

/-- C7 (corrected: the band's lower edge is clamped at 0.01, i.e. the band
is `[max(0.01, p - buffer), p + buffer]`; it equals `[p - buffer, p + buffer]`
whenever `p ≥ 0.01 + buffer`, as in every realistic stop exit).  After a
paper stop-loss exit whose sell fill realized the average price `p`, the
next required entry band in the same interval is centered on `p` with the
`STOP_LOSS_BUFFER` on each side; the re-entry requirement is set, querying
the band again leaves the state unchanged, and only a successful re-entry —
on either side — restores the default band. -/
theorem stopLoss_sets_reentry_band (s : CertaintyPaperState) (o : COpen)
    (sf : RealSellFill) (p : ℚ) (m : String) (btcRef : Option ℚ)
    (hopen : s.openPos = some o) (havg : sf.avgPrice = some p)
    (hmkt : s.iState.marketId = some m) :
    (getCurrentEntryRange (executePaperSell s (some sf) ExitType.stopLoss).iState
        (some m) btcRef).1 =
      ⟨max (1/100) (p - STOP_LOSS_BUFFER), p + STOP_LOSS_BUFFER⟩ ∧
    (executePaperSell s (some sf) ExitType.stopLoss).iState.requireReentryUntilResolved
      = true ∧
    (getCurrentEntryRange (executePaperSell s (some sf) ExitType.stopLoss).iState
        (some m) btcRef).2 =
      (executePaperSell s (some sf) ExitType.stopLoss).iState ∧
    (∀ (tradeId : ℤ) (side : CSide) (shares : ℚ) (f : RealFill),
      0 < shares →
      f.cost + ORDER_GAS_USDC ≤ (executePaperSell s (some sf) ExitType.stopLoss).balance →
      (executePaperBuy (executePaperSell s (some sf) ExitType.stopLoss)
          tradeId side shares (some f)).iState.requireReentryUntilResolved = false ∧
      (getCurrentEntryRange
          (executePaperBuy (executePaperSell s (some sf) ExitType.stopLoss)
            tradeId side shares (some f)).iState (some m) btcRef).1 =
        ⟨ENTRY_PRICE_MIN, ENTRY_PRICE_MAX⟩) := by
  have hsell : executePaperSell s (some sf) ExitType.stopLoss =
      { balance := s.balance + sf.proceeds - ORDER_GAS_USDC
        openPos := none
        iState :=
          { s.iState with
            lastExitType := some ExitType.stopLoss
            lastStopLossExitPrice := some p
            requireReentryUntilResolved := true } } := by
    simp only [executePaperSell, hopen, havg, if_pos rfl, if_true]
  rw [hsell]
  have hsame : ¬ ((some m : Option String) = none ∨
      (some m : Option String) ≠
        (({ s.iState with
            lastExitType := some ExitType.stopLoss
            lastStopLossExitPrice := some p
            requireReentryUntilResolved := true } : IntervalState)).marketId) := by
    simp [hmkt]
  constructor
  · simp only [getCurrentEntryRange, if_neg hsame, if_pos rfl, if_true]
  constructor
  · rfl
  constructor
  · simp only [getCurrentEntryRange, if_neg hsame, if_pos rfl, if_true]
  · intro tradeId side shares f hsh hcost
    have hbuy : executePaperBuy
        ({ balance := s.balance + sf.proceeds - ORDER_GAS_USDC
           openPos := none
           iState :=
             { s.iState with
               lastExitType := some ExitType.stopLoss
               lastStopLossExitPrice := some p
               requireReentryUntilResolved := true } } : CertaintyPaperState)
        tradeId side shares (some f) =
        { balance := s.balance + sf.proceeds - ORDER_GAS_USDC - (f.cost + ORDER_GAS_USDC)
          openPos := some ⟨side, shares, tradeId⟩
          iState :=
            { s.iState with
              lastExitType := none
              lastStopLossExitPrice := some p
              requireReentryUntilResolved := false
              entryCount := s.iState.entryCount + 1 } } := by
      simp only [executePaperBuy, if_neg (not_le.2 hsh), if_neg (not_lt.2 hcost)]
    rw [hbuy]
    constructor
    · rfl
    · have hsame2 : ¬ ((some m : Option String) = none ∨
          (some m : Option String) ≠
            (({ s.iState with
                lastExitType := none
                lastStopLossExitPrice := some p
                requireReentryUntilResolved := false
                entryCount := s.iState.entryCount + 1 } : IntervalState)).marketId) := by
        simp [hmkt]
      simp only [getCurrentEntryRange, if_neg hsame2]
      rfl

/-- C7 witness: a stop-loss realized at 0.745 on a concrete paper state makes
the next required band exactly `[0.73, 0.76]`, via `stopLoss_sets_reentry_band`
(including the clearing re-entry, here on the down side). -/
theorem stopLoss_sets_reentry_band_witness :
    (getCurrentEntryRange
        (executePaperSell ⟨50, some ⟨CSide.up, 10, 1⟩,
            ⟨some "m", none, 1, none, none, false⟩⟩
          (some ⟨10, 149/20, 0, 149/20, some (149/200), some (149/200)⟩)
          ExitType.stopLoss).iState (some "m") none).1 =
      ⟨max (1/100) (149/200 - STOP_LOSS_BUFFER), 149/200 + STOP_LOSS_BUFFER⟩ ∧
    max (1/100 : ℚ) (149/200 - STOP_LOSS_BUFFER) = 73/100 ∧
    (149/200 : ℚ) + STOP_LOSS_BUFFER = 19/25 ∧
    (executePaperBuy
        (executePaperSell ⟨50, some ⟨CSide.up, 10, 1⟩,
            ⟨some "m", none, 1, none, none, false⟩⟩
          (some ⟨10, 149/20, 0, 149/20, some (149/200), some (149/200)⟩)
          ExitType.stopLoss)
        2 CSide.down 5 (some ⟨5, 4, 0, 4, 4/5, 4/5⟩)).iState.requireReentryUntilResolved
      = false := by
  have hc := stopLoss_sets_reentry_band
    ⟨50, some ⟨CSide.up, 10, 1⟩, ⟨some "m", none, 1, none, none, false⟩⟩
    ⟨CSide.up, 10, 1⟩
    ⟨10, 149/20, 0, 149/20, some (149/200), some (149/200)⟩
    (149/200) "m" none rfl rfl rfl
  refine ⟨hc.1, by with_unfolding_all decide, by with_unfolding_all decide, ?_⟩
  exact (hc.2.2.2 2 CSide.down 5 ⟨5, 4, 0, 4, 4/5, 4/5⟩ (by norm_num)
    (by with_unfolding_all decide)).1

/-- C7 counterexample: a stop-loss fill whose realized average price is 0.02
yields the band `[0.01, 0.035]`, not the claimed `[p - buffer, p + buffer] =
[0.005, 0.035]`: the lower edge is clamped at `max(0.01, ·)`. -/
theorem reentry_band_clamp_counterexample :
    (getCurrentEntryRange
        (executePaperSell ⟨100, some ⟨CSide.up, 10, 1⟩,
            ⟨some "m", none, 1, none, none, false⟩⟩
          (some ⟨10, 1/5, 0, 1/5, some (1/50), some (1/50)⟩)
          ExitType.stopLoss).iState (some "m") none).1 =
      ⟨1/100, 7/200⟩ ∧
    ¬ ((1/100 : ℚ) = 1/50 - STOP_LOSS_BUFFER) := by
  constructor
  · with_unfolding_all rfl
  · with_unfolding_all decide

/-! ## StrategyLag (src/modes/lag.js): feeds, the disagreement gate of
`evalLagSignal`, and the entry executor `maybeExecuteLag` (defaults:
hard disagreement 150 USD, Binance max age 5000 ms, Chainlink max age
180000 ms, confirm ticks 2, cooldown 1500 ms, stop cooldown 15000 ms,
TP dynamic with 1..10 cents at 0.05 cents/USD, min profit 1 cent, SL strict
with 1% / 1..3 cents at risk fraction 0.5). -/

/-- An outcome side of the lag strategy. -/
inductive USide where
  | up
  | down
deriving Repr, DecidableEq

/-- `ctx.state.lag._pending`: the entry-confirmation record. -/
structure LagPending where
  side : USide
  px : ℚ
  hits : ℤ
  firstAt : ℤ
deriving Repr, DecidableEq

/-- `ctx.state.lag.open` (trade-relevant fields). -/
structure LagOpen where
  side : USide
  shares : ℚ
  entryPrice : ℚ
  sellPrice : ℚ
  stopPrice : ℚ
  feeBps : ℚ
  entryCostUsdc : ℚ
deriving Repr, DecidableEq

/-- One rolling spot sample (`{t, p}`). -/
structure SpotSample where
  t : ℤ
  p : ℚ
deriving Repr, DecidableEq

/-- The lag-strategy state fields read or written by `evalLagSignal`'s gate
portion and by `maybeExecuteLag` (`signalLAG` models
`ctx.state.lag.signal === 'LAG'`; display strings are omitted). -/
structure LagState where
  openPos : Option LagOpen
  signalLAG : Bool
  suggestedSide : Option USide
  suggestedSpend : Option ℚ
  suggestedShares : Option ℚ
  suggestedLimitPrice : Option ℚ
  pending : Option LagPending
  lastTradeAt : Option ℤ
  lastStopAt : Option ℤ
  lastSignalAt : Option ℤ
  lastEvalAt : Option ℤ
  lastSpot : Option ℚ
  lastUpMid : Option ℚ
  lastDownMid : Option ℚ
  feedDisagreeUsd : Option ℚ
  spotDeltaUsd : Option ℚ
  sideMarketMove01 : Option ℚ
  spotHistory : List SpotSample
deriving Repr, DecidableEq

/-- One underlying price feed snapshot (`ctx.state.underlyingFeeds.*`). -/
structure Feed where
  price : Option ℚ
  exchangeTimestampMs : Option ℤ
  lastUpdatedMs : Option ℤ
deriving Repr, DecidableEq

/-- `feedAgeMs(feed)` from src/modes/lag.js lines 134-142. -/
def feedAgeMs (nowMs : ℤ) (feed : Option Feed) : Option ℤ :=
  match feed with
  | none => none
  | some f =>
    match f.exchangeTimestampMs with
    | some ts => some (max 0 (nowMs - ts))
    | none =>
      match f.lastUpdatedMs with
      | some ts => some (max 0 (nowMs - ts))
      | none => none

/-- The `ctx?.RTDS_SOURCE && lowercase !== 'auto'` early exit (the source
string is taken already lowercased). -/
def rtdsBlocksCompare (rtdsSource : Option String) : Bool :=
  match rtdsSource with
  | some s => decide (s ≠ "auto")
  | none => false

/-- `feedDisagreementUsd(ctx)` from src/modes/lag.js lines 143-161: in auto
source mode, with both feed prices finite and positive and both feeds fresh
(Binance within 5000 ms, Chainlink within 180000 ms), the absolute price
difference; otherwise `null`. -/
def feedDisagreementUsd (rtdsSource : Option String) (nowMs : ℤ)
    (bFeed cFeed : Option Feed) : Option ℚ :=
  if rtdsBlocksCompare rtdsSource then none
  else
    match bFeed.bind Feed.price, cFeed.bind Feed.price with
    | some bp, some cp =>
      if bp ≤ 0 ∨ cp ≤ 0 then none
      else
        match feedAgeMs nowMs bFeed, feedAgeMs nowMs cFeed with
        | some bAge, some cAge =>
          if 5000 < bAge then none
          else if 180000 < cAge then none
          else some |bp - cp|
        | _, _ => none
    | _, _ => none

/-- `pushSpotSample(ctx, spot)` from src/modes/lag.js lines 118-132:
timestamped by the exchange timestamp when available, de-duplicated within
250 ms of the last sample, pruned to the rolling 120 s horizon. -/
def pushSpotSample (hist : List SpotSample) (exchangeTimestampMs : Option ℤ)
    (nowMs : ℤ) (spot : ℚ) : List SpotSample :=
  let t := exchangeTimestampMs.getD nowMs
  if spot ≤ 0 then hist
  else if (match hist.getLast? with
    | some last => decide (|t - last.t| < 250)
    | none => false) then hist
  else
    let h2 := hist ++ [⟨t, spot⟩]
    let cutoff := t - max 5 120 * 1000
    h2.dropWhile (fun s0 => decide (s0.t < cutoff))

/-- The per-tick inputs of `evalLagSignal`. -/
structure LagTickInput where
  spot : Option ℚ
  upMark : Option ℚ
  downMark : Option ℚ
  exchangeTimestampMs : Option ℤ
  nowMs : ℤ
  rtdsSource : Option String
  binanceFeed : Option Feed
  chainlinkFeed : Option Feed
deriving Repr, DecidableEq

/-- `evalLagSignal(ctx)` (src/modes/lag.js lines 558-599) up to and
including the hard feed-disagreement gate.  `rest` stands for the remainder
of the function body (signal computation etc.), which only runs when the
gate does not fire: the gate properties below hold for *every* `rest`.
Guards: invalid spot or either missing/non-positive mid returns unchanged;
otherwise the spot sample is pushed, the disagreement is recorded, and a
disagreement above the hard threshold (150 USD) sets `signal = 'LAG'` and
clears the suggested side/spend/shares/limit and the evaluator deltas. -/
def evalLagSignal (rest : LagState → LagState) (inp : LagTickInput)
    (st : LagState) : LagState :=
  match inp.spot with
  | none => st
  | some spot =>
    if spot ≤ 0 then st
    else
      match inp.upMark, inp.downMark with
      | some um, some dm =>
        if um ≤ 0 ∨ dm ≤ 0 then st
        else
          let st1 := { st with
            spotHistory :=
              pushSpotSample st.spotHistory inp.exchangeTimestampMs inp.nowMs spot }
          let disagree :=
            feedDisagreementUsd inp.rtdsSource inp.nowMs inp.binanceFeed inp.chainlinkFeed
          let st2 := { st1 with feedDisagreeUsd := disagree }
          if (match disagree with
            | some d => decide (150 < d)
            | none => false) then
            { st2 with
              lastEvalAt := some inp.nowMs
              signalLAG := true
              suggestedSide := none
              suggestedSpend := none
              suggestedShares := none
              suggestedLimitPrice := none
              spotDeltaUsd := none
              sideMarketMove01 := none }
          else rest st2
      | _, _ => st

/-- `maxAchievableProfitCentsAtCap({entryLimitPrice01, feeBps})` from
src/modes/lag.js lines 419-426, at the call sites' cap of 0.99. -/
def maxAchievableProfitCentsAtCap (entryLimitPrice01 feeBps : ℚ) : ℚ :=
  (applyTakerFeeOnSell (99/100) feeBps - applyTakerFeeOnBuy entryLimitPrice01 feeBps) * 100

/-- `profitCentsForEntry({entryPrice01, spotDeltaUsd, sideMarketMove01})`
from src/modes/lag.js lines 428-452 under the default configuration (dynamic
take-profit mode, no explicit percent TP): forecast 0.05 cents per USD of
spot move, minus the market's already-realized move, clamped to [1, 10]
cents and floored by the 1-cent minimum profit. -/
def profitCentsForEntry (spotDeltaUsd sideMarketMove01 : Option ℚ) : ℚ :=
  let spotMoveUsd := match spotDeltaUsd with
    | some d0 => |d0|
    | none => 0
  let forecastCents := spotMoveUsd * (1/20)
  let marketMoveCents := match sideMarketMove01 with
    | some mv => if 0 < mv then mv * 100 else 0
    | none => 0
  let lagCents := max 0 (forecastCents - marketMoveCents)
  max 1 (max 1 (min 10 lagCents))

/-- `stopLossCentsForEntry(desiredProfitCents)` from src/modes/lag.js. -/
def stopLossCentsForEntry (desiredProfitCents : ℚ) : ℚ :=
  max 1 (min 3 (desiredProfitCents * (1/2)))

/-- `computeStopPrice01({entryPrice01, desiredProfitCents})` from
src/modes/lag.js lines 465-480, default mode `strict` (the higher of the 1%
stop and the dynamic stop, clamped to [0.001, 0.99]). -/
def computeStopPrice01 (entryPrice01 desiredProfitCents : ℚ) : Option ℚ :=
  if entryPrice01 ≤ 0 then none
  else
    let stopPct := entryPrice01 * (1 - 1/100)
    let stopDyn := entryPrice01 - stopLossCentsForEntry desiredProfitCents / 100
    some (min (99/100) (max (1/1000) (max stopPct stopDyn)))

/-- `computeTargetSellPrice01({...})` from src/modes/lag.js lines 404-417. -/
def computeTargetSellPrice01 (entryLimitPrice01 profitCents buyFeeBps sellFeeBps : ℚ) :
    Option ℚ :=
  let buyMult := 1 + buyFeeBps / 10000
  let sellMult := 1 - sellFeeBps / 10000
  if sellMult ≤ 0 then none
  else
    let sRaw := (entryLimitPrice01 * buyMult + profitCents / 100) / sellMult
    if 99/100 ≤ sRaw then none
    else
      let s0 := min (99/100) (max (1/1000) sRaw)
      if s0 ≤ entryLimitPrice01 then none
      else some s0

/-- The per-tick inputs of `maybeExecuteLag` (paper trading). -/
structure LagExecInput where
  nowMs : ℤ
  endEpochSec : Option ℚ
  upTokenId : Option String
  downTokenId : Option String
  upFeeBps : Option ℚ
  downFeeBps : Option ℚ
  upAsksLevels : List Level
  downAsksLevels : List Level
deriving Repr, DecidableEq

/-- The position-opening tail of `maybeExecuteLag` (src/modes/lag.js lines
1022-1047): the engine `costToBuySharesFromAsks` fill on the chosen side's
asks, the paper-balance check, and the `executePaperDelta(-cost)` deduction
together with the position record. -/
def lagOpenPosition (inp : LagExecInput) (st2 : LagState) (side0 : USide)
    (px0 shares feeBps targetSell stopPrice paperBalance : ℚ) : LagState × ℚ :=
  let asks := match side0 with
    | USide.up => inp.upAsksLevels
    | USide.down => inp.downAsksLevels
  match costToBuySharesFromAsks asks shares feeBps with
  | none => (st2, paperBalance)
  | some fill =>
    if paperBalance < fill.cost then (st2, paperBalance)
    else
      ({ st2 with
          openPos := some ⟨side0, shares, px0,
            targetSell, stopPrice, feeBps, fill.cost⟩
          lastTradeAt := some inp.nowMs },
        paperBalance - fill.cost)

/-- The entry-attempt portion of `maybeExecuteLag` after the confirmation
and cooldown guards (src/modes/lag.js lines 995-1021): suggested shares,
token id, fee, the 99-cent cap, the max-achievable-profit guard and the
target-sell/stop computations, then `lagOpenPosition` with
`lastSignalAt` stamped.  `st1` only differs from the evaluator state by the
bumped `_pending` counter, so its `suggestedShares`, `spotDeltaUsd` and
`sideMarketMove01` are those read by the source. -/
def lagTryEnter (inp : LagExecInput) (st1 : LagState) (side0 : USide)
    (px0 paperBalance : ℚ) : LagState × ℚ :=
  match st1.suggestedShares with
  | none => (st1, paperBalance)
  | some shares =>
    if shares ≤ 0 then (st1, paperBalance)
    else
      match (match side0 with
        | USide.up => inp.upTokenId
        | USide.down => inp.downTokenId) with
      | none => (st1, paperBalance)
      | some _tokenId =>
        match (match side0 with
          | USide.up => inp.upFeeBps
          | USide.down => inp.downFeeBps) with
        | none => (st1, paperBalance)
        | some feeBps =>
          if ¬ px0 < 99/100 then (st1, paperBalance)
          else
            let maxProfitCents := maxAchievableProfitCentsAtCap px0 feeBps
            let desired := profitCentsForEntry st1.spotDeltaUsd st1.sideMarketMove01
            if maxProfitCents + 1/1000000 < desired then (st1, paperBalance)
            else
              match computeTargetSellPrice01 px0 desired feeBps feeBps with
              | none => (st1, paperBalance)
              | some targetSell =>
                if targetSell ≤ 0 then (st1, paperBalance)
                else
                  match computeStopPrice01 px0 desired with
                  | none => (st1, paperBalance)
                  | some stopPrice =>
                    if stopPrice ≤ 0 then (st1, paperBalance)
                    else
                      lagOpenPosition inp
                        { st1 with lastSignalAt := some inp.nowMs }
                        side0 px0 shares feeBps targetSell stopPrice paperBalance

/-- `maybeExecuteLag(ctx)` from src/modes/lag.js lines 963-1047
(paper-trading path), returning the updated lag state and paper balance.
Guard cascade: open position, signal, suggested side/limit, two-tick
confirmation (`_pending`, whose hit counter is bumped in place), the 60 s
end-of-interval backstop, trade and stop cooldowns, suggested shares, token
id, fee, the 99-cent cap, the max-achievable-profit guard, target-sell and
stop computation; then the engine `costToBuySharesFromAsks` fill whose cost
must fit the paper balance before `executePaperDelta(-cost)` opens the
position. -/
def maybeExecuteLag (inp : LagExecInput) (st : LagState) (paperBalance : ℚ) :
    LagState × ℚ :=
  if st.openPos.isSome then (st, paperBalance)
  else if ¬ st.signalLAG then (st, paperBalance)
  else
    match st.suggestedSide, st.suggestedLimitPrice with
    | some side0, some px0 =>
      if px0 ≤ 0 then (st, paperBalance)
      else
        match st.pending with
        | none => ({ st with pending := some ⟨side0, px0, 1, inp.nowMs⟩ }, paperBalance)
        | some p =>
          if p.side ≠ side0 ∨ eps9 < |p.px - px0| then
            ({ st with pending := some ⟨side0, px0, 1, inp.nowMs⟩ }, paperBalance)
          else
            let st1 := { st with pending := some { p with hits := p.hits + 1 } }
            if p.hits + 1 < 2 then (st1, paperBalance)
            else if (match inp.endEpochSec with
              | some e => decide (e - (inp.nowMs : ℚ) / 1000 ≤ 60)
              | none => false) then (st1, paperBalance)
            else
              let lastTradeAt := match st.lastTradeAt with
                | some x => x
                | none => 0
              if inp.nowMs - lastTradeAt < 1500 then (st1, paperBalance)
              else if (match st.lastStopAt with
                | some x => decide (inp.nowMs - x < 15000)
                | none => false) then (st1, paperBalance)
              else lagTryEnter inp st1 side0 px0 paperBalance
    | _, _ => (st, paperBalance)

/-- C8 (corrected: conditioned on the tick actually reaching the evaluator's
feed check — a valid spot price and both outcome mid-prices present and
positive; without that, `evalLagSignal` returns before the gate and a stale
suggestion can still be executed).  On such a tick, if the two fresh feeds
in auto source mode disagree by more than the hard threshold (150 USD), the
evaluator clears the suggested side, shares and limit price, opens nothing,
and the subsequent `maybeExecuteLag` leaves the state and balance untouched
— for every possible remainder `rest` of the evaluator body. -/
theorem feed_disagreement_suppresses_entry
    (rest : LagState → LagState) (inp : LagTickInput) (einp : LagExecInput)
    (st : LagState) (bal : ℚ) (spot um dm d : ℚ)
    (hspot : inp.spot = some spot) (hsp : 0 < spot)
    (hum : inp.upMark = some um) (hdm : inp.downMark = some dm)
    (hum0 : 0 < um) (hdm0 : 0 < dm)
    (hdis : feedDisagreementUsd inp.rtdsSource inp.nowMs inp.binanceFeed
      inp.chainlinkFeed = some d)
    (hhard : 150 < d) :
    (evalLagSignal rest inp st).suggestedSide = none ∧
    (evalLagSignal rest inp st).suggestedShares = none ∧
    (evalLagSignal rest inp st).suggestedLimitPrice = none ∧
    (evalLagSignal rest inp st).openPos = st.openPos ∧
    maybeExecuteLag einp (evalLagSignal rest inp st) bal =
      (evalLagSignal rest inp st, bal) := by
  have hg : decide (150 < d) = true := by simpa using hhard
  have hst1 : evalLagSignal rest inp st =
      { st with
        spotHistory :=
          pushSpotSample st.spotHistory inp.exchangeTimestampMs inp.nowMs spot
        feedDisagreeUsd := some d
        lastEvalAt := some inp.nowMs
        signalLAG := true
        suggestedSide := none
        suggestedSpend := none
        suggestedShares := none
        suggestedLimitPrice := none
        spotDeltaUsd := none
        sideMarketMove01 := none } := by
    simp only [evalLagSignal, hspot, hum, hdm, hdis, hg,
      if_neg (not_le.2 hsp), if_neg (not_or.2 ⟨not_le.2 hum0, not_le.2 hdm0⟩),
      if_true]
  rw [hst1]
  refine ⟨rfl, rfl, rfl, rfl, ?_⟩
  simp only [maybeExecuteLag]
  split_ifs with h1 h2
  · rfl
  · rfl
  · rfl

/-- Concrete evaluator tick for the C8 witness: valid spot, both mids
present, fresh Binance (50000) and Chainlink (49000) feeds in auto mode. -/
def lagWitTick : LagTickInput :=
  { spot := some 50000
    upMark := some (1/2)
    downMark := some (1/2)
    exchangeTimestampMs := none
    nowMs := 1000000
    rtdsSource := some "auto"
    binanceFeed := some ⟨some 50000, some 999000, none⟩
    chainlinkFeed := some ⟨some 49000, some 999000, none⟩ }

/-- Concrete executor input for the C8 witness. -/
def lagWitExec : LagExecInput :=
  { nowMs := 1000000
    endEpochSec := none
    upTokenId := none
    downTokenId := none
    upFeeBps := none
    downFeeBps := none
    upAsksLevels := []
    downAsksLevels := [] }

/-- Concrete lag state for the C8 witness, carrying a stale suggestion. -/
def lagWitState : LagState :=
  { openPos := none
    signalLAG := false
    suggestedSide := some USide.up
    suggestedSpend := some 5
    suggestedShares := some 5
    suggestedLimitPrice := some (1/2)
    pending := none
    lastTradeAt := none
    lastStopAt := none
    lastSignalAt := none
    lastEvalAt := none
    lastSpot := none
    lastUpMid := none
    lastDownMid := none
    feedDisagreeUsd := none
    spotDeltaUsd := some 100
    sideMarketMove01 := some 0
    spotHistory := [] }

theorem feed_disagreement_suppresses_entry_witness :
    (evalLagSignal id lagWitTick lagWitState).suggestedSide = none ∧
    (evalLagSignal id lagWitTick lagWitState).suggestedShares = none ∧
    (evalLagSignal id lagWitTick lagWitState).suggestedLimitPrice = none ∧
    (evalLagSignal id lagWitTick lagWitState).openPos = lagWitState.openPos ∧
    maybeExecuteLag lagWitExec (evalLagSignal id lagWitTick lagWitState) 100 =
      (evalLagSignal id lagWitTick lagWitState, 100) :=
  feed_disagreement_suppresses_entry id lagWitTick lagWitExec lagWitState 100
    50000 (1/2) (1/2) 1000 rfl (by norm_num) rfl rfl (by norm_num) (by norm_num)
    (by with_unfolding_all rfl) (by norm_num)

/-- Lag state for the C8 counterexample: a live LAG signal and suggestion
already stored from an earlier tick, with the confirmation counter one hit
away from firing. -/
def lagCtrState : LagState :=
  { openPos := none
    signalLAG := true
    suggestedSide := some USide.up
    suggestedSpend := none
    suggestedShares := some 5
    suggestedLimitPrice := some (1/2)
    pending := some ⟨USide.up, 1/2, 1, 0⟩
    lastTradeAt := none
    lastStopAt := none
    lastSignalAt := none
    lastEvalAt := none
    lastSpot := none
    lastUpMid := none
    lastDownMid := none
    feedDisagreeUsd := none
    spotDeltaUsd := some 100
    sideMarketMove01 := some 0
    spotHistory := [] }

/-- Evaluator tick for the C8 counterexample: the feeds disagree by 1000 USD
(far above the 150 USD hard threshold) but the spot price is missing, so
`evalLagSignal` returns before reaching the feed-disagreement gate. -/
def lagCtrTick : LagTickInput :=
  { spot := none
    upMark := some (1/2)
    downMark := some (1/2)
    exchangeTimestampMs := none
    nowMs := 1000000
    rtdsSource := some "auto"
    binanceFeed := some ⟨some 50000, some 999000, none⟩
    chainlinkFeed := some ⟨some 49000, some 999000, none⟩ }

/-- Executor input for the C8 counterexample. -/
def lagCtrExec : LagExecInput :=
  { nowMs := 1000000
    endEpochSec := some 2000
    upTokenId := some "t"
    downTokenId := none
    upFeeBps := some 0
    downFeeBps := none
    upAsksLevels := [⟨1/2, 10⟩]
    downAsksLevels := [] }

/-- C8 counterexample: on a tick where the Binance and Chainlink feeds
disagree by 1000 USD — far above the 150 USD hard threshold — but the spot
price is unavailable, `evalLagSignal` returns early without clearing the
stale suggestion, and `maybeExecuteLag` then opens a 5-share position and
spends 2.5 USDC: "no new position is opened on that tick" does not hold
unconditionally. -/
theorem lag_entry_despite_feed_disagreement :
    (feedDisagreementUsd lagCtrTick.rtdsSource lagCtrTick.nowMs
        lagCtrTick.binanceFeed lagCtrTick.chainlinkFeed = some 1000 ∧
      (150 : ℚ) < 1000) ∧
    evalLagSignal id lagCtrTick lagCtrState = lagCtrState ∧
    (maybeExecuteLag lagCtrExec lagCtrState 100).1.openPos =
      some ⟨USide.up, 5, 1/2, 11/20, 99/200, 0, 5/2⟩ ∧
    (maybeExecuteLag lagCtrExec lagCtrState 100).2 = 195/2 := by
  refine ⟨⟨by with_unfolding_all rfl, by norm_num⟩, by with_unfolding_all rfl,
    by with_unfolding_all rfl, by with_unfolding_all rfl⟩

/-- Balance/position case split for the position-opening tail: either the
balance is untouched and the open position is the input's, or the fill cost
fits the balance and is deducted exactly. -/
theorem lagOpenPosition_balance (inp : LagExecInput) (st2 : LagState) (side0 : USide)
    (px0 shares feeBps targetSell stopPrice bal : ℚ) :
    ((lagOpenPosition inp st2 side0 px0 shares feeBps targetSell stopPrice bal).2 = bal ∧
      (lagOpenPosition inp st2 side0 px0 shares feeBps targetSell stopPrice bal).1.openPos
        = st2.openPos) ∨
    (∃ cost : ℚ, cost ≤ bal ∧
      (lagOpenPosition inp st2 side0 px0 shares feeBps targetSell stopPrice bal).2
        = bal - cost) := by
  simp only [lagOpenPosition]
  repeat' split
  · left
    exact ⟨rfl, rfl⟩
  · left
    exact ⟨rfl, rfl⟩
  · rename_i hb
    right
    exact ⟨_, not_lt.1 hb, rfl⟩

/-- Balance/position case split for the entry-attempt stage. -/
theorem lagTryEnter_balance (inp : LagExecInput) (st1 : LagState) (side0 : USide)
    (px0 bal : ℚ) :
    ((lagTryEnter inp st1 side0 px0 bal).2 = bal ∧
      (lagTryEnter inp st1 side0 px0 bal).1.openPos = st1.openPos) ∨
    (∃ cost : ℚ, cost ≤ bal ∧ (lagTryEnter inp st1 side0 px0 bal).2 = bal - cost) := by
  simp only [lagTryEnter]
  repeat' split
  all_goals try (left; exact ⟨rfl, rfl⟩)
  exact lagOpenPosition_balance inp _ side0 px0 _ _ _ _ bal

/-- Balance/position case split for the whole lag executor: every branch
either leaves the balance and open position unchanged or deducts a fill
cost that was checked against the balance. -/
theorem maybeExecuteLag_balance (inp : LagExecInput) (st : LagState) (bal : ℚ) :
    ((maybeExecuteLag inp st bal).2 = bal ∧
      (maybeExecuteLag inp st bal).1.openPos = st.openPos) ∨
    (∃ cost : ℚ, cost ≤ bal ∧ (maybeExecuteLag inp st bal).2 = bal - cost) := by
  suffices h : ∀ r : LagState × ℚ, maybeExecuteLag inp st bal = r →
      ((r.2 = bal ∧ r.1.openPos = st.openPos) ∨
        (∃ cost : ℚ, cost ≤ bal ∧ r.2 = bal - cost)) by
    exact h (maybeExecuteLag inp st bal) rfl
  intro r hr
  rw [maybeExecuteLag] at hr
  repeat' split at hr
  all_goals subst hr
  all_goals first
    | (left; exact ⟨rfl, rfl⟩)
    | (dsimp only
       repeat' split
       all_goals first
         | (left; exact ⟨rfl, rfl⟩)
         | (exact lagTryEnter_balance inp _ _ _ bal))

/-- C10 (confirmed).  Every paper entry operation — the arbitrage straddle,
the lag entry, and the certainty buy — checks its full fee-inclusive cost
(plus order gas for the certainty strategy) against the current paper
balance first: either it is a no-op on balance and position (for the lag
executor, on balance and open position), or the cost fits the balance and
exactly that cost is deducted, so a nonnegative balance stays nonnegative. -/
theorem paper_entries_preserve_nonneg_balance :
    (∀ (s : PaperArbState) (sh cost : ℚ),
      executePaperStraddle s sh cost = s ∨
      (cost ≤ s.balance ∧
        (executePaperStraddle s sh cost).balance = s.balance - cost ∧
        (0 ≤ s.balance → 0 ≤ (executePaperStraddle s sh cost).balance))) ∧
    (∀ (inp : LagExecInput) (st : LagState) (bal : ℚ),
      ((maybeExecuteLag inp st bal).2 = bal ∧
        (maybeExecuteLag inp st bal).1.openPos = st.openPos) ∨
      (∃ cost : ℚ, cost ≤ bal ∧ (maybeExecuteLag inp st bal).2 = bal - cost ∧
        (0 ≤ bal → 0 ≤ (maybeExecuteLag inp st bal).2))) ∧
    (∀ (s : CertaintyPaperState) (tid : ℤ) (side : CSide) (sh : ℚ)
        (fill : Option RealFill),
      executePaperBuy s tid side sh fill = s ∨
      (∃ f, fill = some f ∧ f.cost + ORDER_GAS_USDC ≤ s.balance ∧
        (executePaperBuy s tid side sh fill).balance =
          s.balance - (f.cost + ORDER_GAS_USDC) ∧
        (0 ≤ s.balance → 0 ≤ (executePaperBuy s tid side sh fill).balance))) := by
  refine ⟨?_, ?_, ?_⟩
  · intro s sh cost
    by_cases h1 : cost ≤ 0
    · left
      simp only [executePaperStraddle, if_pos h1]
    · by_cases h2 : s.balance < cost
      · left
        simp only [executePaperStraddle, if_neg h1, if_pos h2]
      · cases ho : s.arbOpen with
        | some a =>
          left
          simp only [executePaperStraddle, if_neg h1, if_neg h2, ho]
        | none =>
          right
          refine ⟨not_lt.1 h2, ?_, fun _ => ?_⟩
          · simp only [executePaperStraddle, if_neg h1, if_neg h2, ho]
          · simp only [executePaperStraddle, if_neg h1, if_neg h2, ho]
            have := not_lt.1 h2
            linarith
  · intro inp st bal
    rcases maybeExecuteLag_balance inp st bal with h | ⟨cost, hc, he⟩
    · left
      exact h
    · right
      refine ⟨cost, hc, he, fun _ => ?_⟩
      rw [he]
      linarith
  · intro s tid side sh fill
    cases hop : s.openPos with
    | some o =>
      left
      simp only [executePaperBuy, hop]
    | none =>
      by_cases hsh : sh ≤ 0
      · left
        simp only [executePaperBuy, hop, if_pos hsh]
      · cases hf : fill with
        | none =>
          left
          simp only [executePaperBuy, hop, if_neg hsh]
        | some f =>
          by_cases hb : s.balance < f.cost + ORDER_GAS_USDC
          · left
            simp only [executePaperBuy, hop, if_neg hsh, if_pos hb]
          · right
            refine ⟨f, rfl, not_lt.1 hb, ?_, fun _ => ?_⟩
            · simp only [executePaperBuy, hop, if_neg hsh, if_neg hb]
            · simp only [executePaperBuy, hop, if_neg hsh, if_neg hb]
              have := not_lt.1 hb
              linarith

end PolymarketArb
